import Mathlib

/-!
Verification of the Act Operator scaffolding engine
(`act_operator/utils.py` and the `with`-block of the staged cast render).

Strings are embedded as `List Char`; Python built-ins used by the code
(`str.isalnum`, `str.lower`, `str.title`, `str.strip`, `re` collapse of
separator runs) are modelled character-by-character for the ASCII range
plus the non-ASCII code points exercised by the theorems (Python's
`str.isalnum` is Unicode-aware, which matters for one of the claims).
-/

namespace ActOperator

/-- Python `str.isalnum` restricted to the alphabet used in this
development: ASCII letters and digits, plus the non-ASCII letters
U+00E9 (é) and U+00C9 (É), which Python classifies as alphanumeric
(Unicode category Ll/Lu). -/
def pyIsAlnum (c : Char) : Bool :=
  c.isAlpha || c.isDigit || c = 'é' || c = 'É'

/-- Python `str.lower` on the modelled alphabet: ASCII uppercase maps to
lowercase, É maps to é, everything else is unchanged. -/
def pyLower (c : Char) : Char :=
  match c with
  | 'A' => 'a' | 'B' => 'b' | 'C' => 'c' | 'D' => 'd' | 'E' => 'e'
  | 'F' => 'f' | 'G' => 'g' | 'H' => 'h' | 'I' => 'i' | 'J' => 'j'
  | 'K' => 'k' | 'L' => 'l' | 'M' => 'm' | 'N' => 'n' | 'O' => 'o'
  | 'P' => 'p' | 'Q' => 'q' | 'R' => 'r' | 'S' => 's' | 'T' => 't'
  | 'U' => 'u' | 'V' => 'v' | 'W' => 'w' | 'X' => 'x' | 'Y' => 'y'
  | 'Z' => 'z' | 'É' => 'é'
  | other => other

/-- Python `str.upper` (used by `str.title`) on the modelled alphabet. -/
def pyUpper (c : Char) : Char :=
  match c with
  | 'a' => 'A' | 'b' => 'B' | 'c' => 'C' | 'd' => 'D' | 'e' => 'E'
  | 'f' => 'F' | 'g' => 'G' | 'h' => 'H' | 'i' => 'I' | 'j' => 'J'
  | 'k' => 'K' | 'l' => 'L' | 'm' => 'M' | 'n' => 'N' | 'o' => 'O'
  | 'p' => 'P' | 'q' => 'Q' | 'r' => 'R' | 's' => 'S' | 't' => 'T'
  | 'u' => 'U' | 'v' => 'V' | 'w' => 'W' | 'x' => 'X' | 'y' => 'Y'
  | 'z' => 'Z' | 'é' => 'É'
  | other => other

/-- A character is cased (drives Python `str.title` word boundaries):
letters of the modelled alphabet. -/
def pyIsCased (c : Char) : Bool :=
  c.isAlpha || c = 'é' || c = 'É'

/-- Python whitespace as recognised by `str.strip()` and the regex
class backslash-s, ASCII range. -/
def pyIsSpace (c : Char) : Bool :=
  c = ' ' || c = '\t' || c = '\n' || c = '\r' ||
  c = Char.ofNat 11 || c = Char.ofNat 12

/-- Drop trailing characters satisfying `p` (the right half of Python
`str.strip`/`str.rstrip`). -/
def dropTrailing (p : Char → Bool) : List Char → List Char
  | [] => []
  | c :: cs =>
    let r := dropTrailing p cs
    if r = [] && p c then [] else c :: r

/-- Python `str.strip()` (no argument): remove leading and trailing
whitespace. -/
def pyStrip (l : List Char) : List Char :=
  dropTrailing pyIsSpace (l.dropWhile pyIsSpace)

/-- Python `str.strip(sep)` for a single-character argument. -/
def stripSep (sep : Char) (l : List Char) : List Char :=
  dropTrailing (· = sep) (l.dropWhile (· = sep))

/-- Collapse of runs of two or more `sep` characters into a single one:
the effect of `re.sub(re.escape(separator) + "\x7b2,\x7d", separator, s)`
in `_normalize`. -/
def collapseSep (sep : Char) : List Char → List Char
  | [] => []
  | [c] => [c]
  | c :: d :: rest =>
    if c = sep && d = sep then collapseSep sep (d :: rest)
    else c :: collapseSep sep (d :: rest)

/-- The per-character step of `_normalize`: lowercase alphanumeric
characters, everything else becomes the separator. -/
def cleanedChar (separator : Char) (ch : Char) : Char :=
  if pyIsAlnum ch then pyLower ch else separator

/-- Embedding of `_normalize(value, separator)` from
`act_operator/utils.py`: map every character to its lowercase form if
alphanumeric else to the separator, collapse runs of the separator, and
strip leading/trailing separators. -/
def pyNormalize (value : List Char) (separator : Char) : List Char :=
  stripSep separator (collapseSep separator (value.map (cleanedChar separator)))

/-- Python `str.title` on the modelled alphabet: a cased character is
uppercased after an uncased character and lowercased after a cased one;
uncased characters pass through. -/
def pyTitleGo (prevCased : Bool) : List Char → List Char
  | [] => []
  | c :: cs =>
    (if pyIsCased c then (if prevCased then pyLower c else pyUpper c) else c)
      :: pyTitleGo (pyIsCased c) cs

/-- Python `str.title()`. -/
def pyTitle (l : List Char) : List Char := pyTitleGo false l

/-- Python `str.replace(a, b)` for single-character `a`, `b`. -/
def replaceChar (a b : Char) (l : List Char) : List Char :=
  l.map fun c => if c = a then b else c

/-- Python `str.replace(" ", "")`: remove every occurrence of a
character. -/
def removeChar (a : Char) (l : List Char) : List Char :=
  l.filter (· ≠ a)

/-- The `NameVariants` dataclass of `act_operator/utils.py`. -/
structure NameVariants where
  raw : List Char
  slug : List Char
  snake : List Char
  title : List Char
  pascal : List Char
deriving Repr, DecidableEq

/-- Embedding of `build_name_variants(raw)` from `act_operator/utils.py`.
`Except.error` carries the `ValueError` message raised by the code. -/
def build_name_variants (raw : List Char) : Except (List Char) NameVariants :=
  let normalized := pyStrip raw
  if normalized = [] then
    .error "Empty string cannot be used.".toList
  else
    let slug := pyNormalize normalized '-'
    let snake := pyNormalize normalized '_'
    let title := pyTitle (replaceChar '-' ' ' (replaceChar '_' ' ' normalized))
    let pascal := removeChar ' ' title
    if slug = [] || snake = [] then
      .error "Please enter a name containing valid English characters.".toList
    else
      .ok { raw := normalized, slug := slug, snake := snake
            title := title, pascal := pascal }


/-- Separator-run detector: true when two adjacent characters both equal
`sep`. -/
def hasDoubleSep (sep : Char) : List Char → Bool
  | c :: d :: rest => (c = sep && d = sep) || hasDoubleSep sep (d :: rest)
  | _ => false

/-- First character equals `sep`. -/
def headIsSep (sep : Char) : List Char → Bool
  | [] => false
  | c :: _ => c = sep

/-- Last character equals `sep`. -/
def lastIsSep (sep : Char) : List Char → Bool
  | [] => false
  | [c] => c = sep
  | _ :: c :: cs => lastIsSep sep (c :: cs)

/-- Modelled from the spec: "valid identifier" — first character a letter,
remaining characters alphanumeric or underscore. This follows the spec's
words so it can be compared against the code, which performs no such
check on `pascal`. -/
def specValidIdentifier (l : List Char) : Bool :=
  match l with
  | [] => false
  | c :: cs => c.isAlpha && cs.all (fun d => d.isAlpha || d.isDigit || d = '_')

/-- JSON values, the in-memory form of `langgraph.json` (Python
`json.loads` output). Objects keep insertion order, as Python dicts do. -/
inductive JVal where
  | jstr (s : String)
  | jnum (n : Int)
  | jbool (b : Bool)
  | jnull
  | jarr (xs : List JVal)
  | jobj (fields : List (String × JVal))

/-- Ordered-dictionary lookup (first matching key). -/
def lookupField : List (String × JVal) → String → Option JVal
  | [], _ => none
  | (k, v) :: rest, key => if k = key then some v else lookupField rest key

/-- Replace the value stored under `key`, keeping the key's position;
no-op when the key is absent (models in-place mutation of a dict entry). -/
def setField : List (String × JVal) → String → JVal → List (String × JVal)
  | [], _, _ => []
  | (k, v) :: rest, key, newv =>
    if k = key then (k, newv) :: rest else (k, v) :: setField rest key newv

/-- Python `dict.setdefault(key, dflt)`: returns the stored value and the
possibly-extended dictionary (a new key is appended at the end). -/
def setdefaultField (fields : List (String × JVal)) (key : String)
    (dflt : JVal) : JVal × List (String × JVal) :=
  match lookupField fields key with
  | some v => (v, fields)
  | none => (dflt, fields ++ [(key, dflt)])

/-- Python `==` between a JSON value and a Python string. -/
def jvalEqStr (v : JVal) (s : String) : Bool :=
  match v with
  | .jstr t => t = s
  | _ => false

/-- Substring test on character lists (Python `needle in haystack`). -/
def containsSub (hay needle : List Char) : Bool :=
  match hay with
  | [] => needle.isEmpty
  | c :: cs => needle.isPrefixOf (c :: cs) || containsSub cs needle

/-- Code-point lexicographic less-or-equal on character lists: the order
Python uses to compare strings. -/
def charListLe : List Char → List Char → Bool
  | [], _ => true
  | _ :: _, [] => false
  | a :: as, b :: bs =>
    if a.toNat < b.toNat then true
    else if b.toNat < a.toNat then false
    else charListLe as bs

/-- Python string comparison (code-point lexicographic). -/
def pyStrLe (a b : String) : Bool := charListLe a.toList b.toList

/-- Stable insertion into a sorted list of strings. -/
def insertSorted (s : String) : List String → List String
  | [] => [s]
  | t :: ts => if pyStrLe s t then s :: t :: ts else t :: insertSorted s ts

/-- Python `list.sort()` on strings: stable ascending sort by code-point
lexicographic order. -/
def sortStrings : List String → List String
  | [] => []
  | s :: ss => insertSorted s (sortStrings ss)

/-- Read a JSON array as a list of strings; `none` when a non-string
element is present (Python `list.sort` would raise `TypeError`). -/
def asStrings : List JVal → Option (List String)
  | [] => some []
  | .jstr s :: rest => (asStrings rest).map (s :: ·)
  | _ => none

/-- Embedding of `_add_cast_dependency(payload, cast_snake)` from
`act_operator/utils.py`: `payload.setdefault("dependencies", ["."])`,
then append `./casts/<cast_snake>` and re-sort if absent. `none` models a
Python exception (append/sort on a value of the wrong type). The `jstr`
and `jobj` branches mirror Python's `in` on strings (substring test) and
dicts (key test), where the subsequent `append` would raise. -/
def addCastDependency (payload : List (String × JVal))
    (cast_snake : String) : Option (List (String × JVal)) :=
  let sd := setdefaultField payload "dependencies" (.jarr [.jstr "."])
  let cast_dependency := "./casts/" ++ cast_snake
  match sd.1 with
  | .jarr deps =>
    if deps.any (jvalEqStr · cast_dependency) then some sd.2
    else
      match asStrings deps with
      | some strs =>
        some (setField sd.2 "dependencies"
          (.jarr ((sortStrings (strs ++ [cast_dependency])).map .jstr)))
      | none => none
  | .jstr s =>
    if containsSub s.toList cast_dependency.toList then some sd.2 else none
  | .jobj inner =>
    if (lookupField inner cast_dependency).isSome then some sd.2 else none
  | _ => none

/-- Embedding of `_add_cast_graph(payload, cast_snake)` from
`act_operator/utils.py`: `payload.setdefault("graphs", dict())` then
`graphs.setdefault(cast_snake, reference)`. -/
def addCastGraph (payload : List (String × JVal))
    (cast_snake : String) : Option (List (String × JVal)) :=
  let sd := setdefaultField payload "graphs" (.jobj [])
  let graph_reference :=
    "./casts/" ++ cast_snake ++ "/graph.py:" ++ cast_snake ++ "_graph"
  match sd.1 with
  | .jobj gs =>
    match lookupField gs cast_snake with
    | some _ => some sd.2
    | none =>
      some (setField sd.2 "graphs"
        (.jobj (gs ++ [(cast_snake, .jstr graph_reference)])))
  | _ => none

/-- Embedding of `update_langgraph_registry` from `act_operator/utils.py`
at the level of the parsed document (the file read/parse and
serialize/write steps are the identity on the parsed value, since
`json.loads` and `json.dumps` round-trip JSON values exactly). -/
def update_langgraph_registry (payload : List (String × JVal))
    (cast_snake : String) : Option (List (String × JVal)) :=
  (addCastDependency payload cast_snake).bind
    (fun p => addCastGraph p cast_snake)

/-- The dependency path is already recorded in the `dependencies` value,
in the sense of Python `in`. -/
def depPresent (v : JVal) (dep : String) : Bool :=
  match v with
  | .jarr deps => deps.any (jvalEqStr · dep)
  | .jstr s => containsSub s.toList dep.toList
  | .jobj inner => (lookupField inner dep).isSome
  | _ => false

/-- The `[tool.uv.workspace]` header literal. -/
def wsHeader : List Char := "[tool.uv.workspace]".toList

/-- Split at the first occurrence of `needle`: returns the text before
the occurrence and the text after it (the position `re` substitutes at,
and the first position Python's `in` test witnesses). -/
def splitFirst (needle : List Char) : List Char → Option (List Char × List Char)
  | [] => if needle.isEmpty then some ([], []) else none
  | c :: cs =>
    if needle.isPrefixOf (c :: cs) then some ([], (c :: cs).drop needle.length)
    else
      match splitFirst needle cs with
      | some (a, b) => some (c :: a, b)
      | none => none

/-- One line of `_format_members_section`: `    "member"`. -/
def memberLine (m : String) : List Char :=
  "    \"".toList ++ m.toList ++ ['"']

/-- The `",\n".join(...)` of `_format_members_section`. -/
def memberLines : List String → List Char
  | [] => []
  | [m] => memberLine m
  | m :: rest => memberLine m ++ ',' :: '\n' :: memberLines rest

/-- Embedding of `_format_members_section(members)` from
`act_operator/utils.py`. -/
def formatMembers (members : List String) : List Char :=
  "members = [\n".toList ++ memberLines members ++ '\n' :: [']']

/-- The optional regex group `(?:members\s*=\s*\[[^\]]*\])?` of
`_update_workspace_section`, compiled by hand: drop an existing members
array if one starts right here, otherwise change nothing (the group
matches the empty string). -/
def stripMembersBlock (rest : List Char) : List Char :=
  if "members".toList.isPrefixOf rest then
    match (rest.drop 7).dropWhile pyIsSpace with
    | '=' :: r2 =>
      match r2.dropWhile pyIsSpace with
      | '[' :: r3 =>
        match r3.dropWhile (· ≠ ']') with
        | ']' :: r4 => r4
        | _ => rest
      | _ => rest
    | _ => rest
  else rest

/-- Embedding of `_update_workspace_section(content, members)` from
`act_operator/utils.py`. The regex
`(\[tool\.uv\.workspace\]\s*)(?:members\s*=\s*\[[^\]]*\])?` is compiled
by hand: group 1 keeps the header and the maximal whitespace run after
it, the optional group swallows an existing members array, and the
single substitution re-emits group 1 followed by the freshly formatted
members array. When the header is absent a new block is appended to the
right-stripped content. -/
def updateWorkspaceSection (content : List Char)
    (members : List String) : List Char :=
  if containsSub content wsHeader then
    match splitFirst wsHeader content with
    | some (before, after) =>
      before ++ wsHeader ++ after.takeWhile pyIsSpace ++
        formatMembers members ++ stripMembersBlock (after.dropWhile pyIsSpace)
    | none => content
  else
    dropTrailing pyIsSpace content ++ "\n\n[tool.uv.workspace]\n".toList ++
      formatMembers members ++ ['\n']

/-- Split a character list at every comma. -/
def splitOnComma : List Char → List (List Char)
  | [] => [[]]
  | c :: cs =>
    if c = ',' then [] :: splitOnComma cs
    else
      match splitOnComma cs with
      | g :: gs => (c :: g) :: gs
      | [] => [[c]]

/-- Parse one member entry of a TOML array: a trimmed, quoted basic
string without escapes. -/
def parseMemberItem (item : List Char) : Option String :=
  match pyStrip item with
  | '"' :: rest =>
    let body := rest.takeWhile (· ≠ '"')
    if body ++ ['"'] = rest then some (String.mk body) else none
  | _ => none

/-- Parse the body between `[` and `]` of a members array. -/
def parseMembersBody (body : List Char) : Option (List String) :=
  if pyStrip body = [] then some []
  else (splitOnComma body).mapM parseMemberItem

/-- Modelled from Python `tomllib.loads` composed with
`_extract_workspace_members` (the library is external to the
repository): extract `tool.uv.workspace.members` for documents whose
`[tool.uv.workspace]` table carries its members array directly after the
header, member strings being escape-free basic strings; the members key
defaults to the empty list when the table or the key is absent, exactly
as `_extract_workspace_members` defaults. -/
def tomlWorkspaceMembers (content : List Char) : Option (List String) :=
  match splitFirst wsHeader content with
  | none => some []
  | some (_, after) =>
    let a1 := after.dropWhile pyIsSpace
    if "members".toList.isPrefixOf a1 then
      match (a1.drop 7).dropWhile pyIsSpace with
      | '=' :: a2 =>
        match a2.dropWhile pyIsSpace with
        | '[' :: a3 =>
          match a3.dropWhile (· ≠ ']') with
          | ']' :: _ => parseMembersBody (a3.takeWhile (· ≠ ']'))
          | _ => none
        | _ => none
      | _ => none
    else some []

/-- Embedding of `update_workspace_members(pyproject_path, new_member)`
from `act_operator/utils.py`, acting on the file's text content: parse
the members list, return the content unchanged if the member is already
present, otherwise rewrite only the members block with the sorted,
extended list. `none` models a `tomllib` parse error. -/
def update_workspace_members (content : List Char)
    (new_member : String) : Option (List Char) :=
  match tomlWorkspaceMembers content with
  | none => none
  | some members =>
    if new_member ∈ members then some content
    else
      some (updateWorkspaceSection content
        (sortStrings (members ++ [new_member])))

/-- A canonically shaped manifest document: arbitrary content before the
workspace header, the members block right after it, arbitrary content
after the block. -/
def manifestDoc (pre : List Char) (members : List String)
    (post : List Char) : List Char :=
  pre ++ wsHeader ++ '\n' :: formatMembers members ++ post

/-- Characters allowed in a workspace member path (they keep the TOML
array unambiguous: no quote, bracket, comma, backslash or whitespace). -/
def safeMemberChar (c : Char) : Bool :=
  c.isAlpha || c.isDigit || c = '/' || c = '_' || c = '-' || c = '.'

/-- A member path made of safe characters only. -/
def safeMember (m : String) : Bool :=
  !m.toList.isEmpty && m.toList.all safeMemberChar

/-- JSON whitespace, as accepted by Python `json.loads`. -/
def jsonWs (c : Char) : Bool :=
  c = ' ' || c = '\n' || c = '\t' || c = '\r'

/-- Drop leading JSON whitespace. -/
def skipWs (cs : List Char) : List Char := cs.dropWhile jsonWs

/-- Escaping of one character inside a JSON string literal, as
`json.dumps` with `ensure_ascii=False` produces (the documents at hand
contain no other control characters). Modelled from the Python `json`
standard library, which is external to the repository. -/
def escapeJsonChar (c : Char) : List Char :=
  if c = '"' then ['\\', '"']
  else if c = '\\' then ['\\', '\\']
  else if c = '\n' then ['\\', 'n']
  else if c = '\t' then ['\\', 't']
  else if c = '\r' then ['\\', 'r']
  else [c]

/-- Escape a whole string body. -/
def escapeJsonStr (cs : List Char) : List Char :=
  (cs.map escapeJsonChar).flatten

/-- `indent=2` indentation at nesting level `lvl`. -/
def jsonIndent (lvl : Nat) : List Char := List.replicate (2 * lvl) ' '

mutual

/-- Serializer for one JSON value, modelled from Python
`json.dumps(data, ensure_ascii=False, indent=2)` (the `json` standard
library is external to the repository): empty containers print as
`[]`/braces, non-empty ones one element per line, object key-value
separator is a colon and a space, item separator a comma. -/
def dumpJVal (lvl : Nat) : JVal → List Char
  | .jstr s => '"' :: (escapeJsonStr s.toList ++ ['"'])
  | .jnum n => (toString n).toList
  | .jbool b => if b then "true".toList else "false".toList
  | .jnull => "null".toList
  | .jarr [] => "[]".toList
  | .jarr (x :: xs) =>
      '[' :: '\n' :: (dumpArrItems (lvl + 1) x xs ++
        '\n' :: (jsonIndent lvl ++ [']']))
  | .jobj [] => [Char.ofNat 123, Char.ofNat 125]
  | .jobj (f :: fs) =>
      Char.ofNat 123 :: '\n' :: (dumpObjItems (lvl + 1) f fs ++
        '\n' :: (jsonIndent lvl ++ [Char.ofNat 125]))
termination_by v => sizeOf v

/-- Comma-and-newline separated array items, each on its own indented
line. -/
def dumpArrItems (lvl : Nat) (x : JVal) : List JVal → List Char
  | [] => jsonIndent lvl ++ dumpJVal lvl x
  | y :: ys =>
      jsonIndent lvl ++ dumpJVal lvl x ++
        ',' :: '\n' :: dumpArrItems lvl y ys
termination_by ys => sizeOf x + sizeOf ys

/-- Comma-and-newline separated object entries, each on its own
indented line. -/
def dumpObjItems (lvl : Nat) : String × JVal → List (String × JVal) → List Char
  | (k, v), [] =>
      jsonIndent lvl ++ '"' :: (escapeJsonStr k.toList ++
        '"' :: ':' :: ' ' :: dumpJVal lvl v)
  | (k, v), g :: gs =>
      (jsonIndent lvl ++ '"' :: (escapeJsonStr k.toList ++
        '"' :: ':' :: ' ' :: dumpJVal lvl v)) ++
        ',' :: '\n' :: dumpObjItems lvl g gs
termination_by f gs => sizeOf f + sizeOf gs

end

/-- Top-level serialization, `json.dumps(data, ensure_ascii=False, indent=2)`. -/
def jsonDumps (v : JVal) : List Char := dumpJVal 0 v

/-- One JSON string body with the escapes `dumpJVal` can emit; returns
the decoded characters and the input after the closing quote. -/
def parseStrBody : Nat → List Char → Option (List Char × List Char)
  | 0, _ => none
  | _ + 1, [] => none
  | fuel + 1, c :: cs =>
    if c = '"' then some ([], cs)
    else if c = '\\' then
      match cs with
      | [] => none
      | e :: cs2 =>
        let dec : Option Char :=
          if e = 'n' then some '\n'
          else if e = 't' then some '\t'
          else if e = 'r' then some '\r'
          else if e = '"' then some '"'
          else if e = '\\' then some '\\'
          else none
        match dec with
        | none => none
        | some d => (parseStrBody fuel cs2).map (fun p => (d :: p.1, p.2))
    else (parseStrBody fuel cs).map (fun p => (c :: p.1, p.2))

/-- Decimal digits to a natural number. -/
def digitsToNat (ds : List Char) : Nat :=
  ds.foldl (fun acc c => 10 * acc + (c.toNat - 48)) 0

mutual

/-- Recursive-descent JSON reader, modelled from Python `json.loads`
(the `json` standard library is external to the repository); fuel bounds
the recursion, `jsonLoads` supplies enough of it for any input. -/
def parseVal : Nat → List Char → Option (JVal × List Char)
  | 0, _ => none
  | fuel + 1, cs =>
    match skipWs cs with
    | '"' :: rest =>
        (parseStrBody (fuel + 1) rest).map
          (fun p => (.jstr (String.mk p.1), p.2))
    | '[' :: rest =>
        (match skipWs rest with
         | ']' :: r2 => some (.jarr [], r2)
         | _ => (parseArrItems fuel rest).map (fun p => (.jarr p.1, p.2)))
    | 't' :: 'r' :: 'u' :: 'e' :: r => some (.jbool true, r)
    | 'f' :: 'a' :: 'l' :: 's' :: 'e' :: r => some (.jbool false, r)
    | 'n' :: 'u' :: 'l' :: 'l' :: r => some (.jnull, r)
    | c :: rest =>
        if c = Char.ofNat 123 then
          match skipWs rest with
          | c2 :: r2 =>
            if c2 = Char.ofNat 125 then some (.jobj [], r2)
            else (parseObjItems fuel rest).map (fun p => (.jobj p.1, p.2))
          | [] => none
        else if c = '-' then
          match rest.takeWhile Char.isDigit with
          | [] => none
          | ds => some (.jnum (-(Int.ofNat (digitsToNat ds))),
              rest.dropWhile Char.isDigit)
        else if c.isDigit then
          some (.jnum (Int.ofNat (digitsToNat ((c :: rest).takeWhile Char.isDigit))),
            (c :: rest).dropWhile Char.isDigit)
        else none
    | [] => none

/-- Items of a non-empty JSON array, up to and including the closing
bracket. -/
def parseArrItems : Nat → List Char → Option (List JVal × List Char)
  | 0, _ => none
  | fuel + 1, cs =>
    match parseVal fuel cs with
    | none => none
    | some (v, rest) =>
      match skipWs rest with
      | ',' :: r2 =>
          (parseArrItems fuel r2).map (fun p => (v :: p.1, p.2))
      | ']' :: r2 => some ([v], r2)
      | _ => none

/-- Entries of a non-empty JSON object, up to and including the closing
brace. -/
def parseObjItems : Nat → List Char → Option (List (String × JVal) × List Char)
  | 0, _ => none
  | fuel + 1, cs =>
    match skipWs cs with
    | '"' :: rest =>
      match parseStrBody (fuel + 1) rest with
      | none => none
      | some (k, r1) =>
        match skipWs r1 with
        | ':' :: r2 =>
          match parseVal fuel r2 with
          | none => none
          | some (v, r3) =>
            match skipWs r3 with
            | ',' :: r4 =>
                (parseObjItems fuel r4).map
                  (fun p => ((String.mk k, v) :: p.1, p.2))
            | c :: r4 =>
                if c = Char.ofNat 125 then some ([(String.mk k, v)], r4)
                else none
            | [] => none
        | _ => none
    | _ => none

end

/-- Top-level parse, `json.loads`: one value, nothing but whitespace
after it. -/
def jsonLoads (cs : List Char) : Option JVal :=
  match parseVal (cs.length + 1) cs with
  | some (v, rest) => if skipWs rest = [] then some v else none
  | none => none

/-- Embedding of `update_langgraph_registry` from `act_operator/utils.py`
at the level of the file text: `_load_json_file` (json.loads), the two
in-place mutations, then `_save_json_file`, which always rewrites the
file as `json.dumps(payload, ensure_ascii=False, indent=2) + "\n"`
whatever the original formatting was. -/
def update_langgraph_file (content : List Char) (cast_snake : String) :
    Option (List Char) :=
  match jsonLoads content with
  | some (.jobj payload) =>
      (update_langgraph_registry payload cast_snake).map
        (fun r => jsonDumps (.jobj r) ++ ['\n'])
  | _ => none

/-- A compact, single-line `langgraph.json` that already contains both
the dependency path and the graphs key for `alpha`. -/
def c5input : List Char :=
  "\x7b\"dependencies\": [\".\", \"./casts/alpha\"], \"graphs\": \x7b\"alpha\": \"./casts/alpha/graph.py:alpha_graph\"\x7d\x7d\n".toList

/-- What the call actually writes back for `c5input`: the same parsed
document, re-serialized with `indent=2`. -/
def c5output : List Char :=
  "\x7b\n  \"dependencies\": [\n    \".\",\n    \"./casts/alpha\"\n  ],\n  \"graphs\": \x7b\n    \"alpha\": \"./casts/alpha/graph.py:alpha_graph\"\n  \x7d\n\x7d\n".toList

/-- The parsed form of `c5input`. -/
def c5payload : List (String × JVal) :=
  [("dependencies", .jarr [.jstr ".", .jstr "./casts/alpha"]),
   ("graphs", .jobj [("alpha", .jstr "./casts/alpha/graph.py:alpha_graph")])]

/-- Environment of one `render_cookiecutter_cast_subproject` call: which
of its three fallible steps fail (`cookiecutter` raising, the rendered
cast directory missing, `shutil.move` raising). -/
structure CastRenderOracle where
  cookiecutterRaises : Bool
  castDirRendered : Bool
  moveRaises : Bool

/-- The on-disk facts the claim is about: whether the temporary staging
root exists and whether the target holds the moved cast. -/
structure FsState where
  stagingExists : Bool
  targetPopulated : Bool

/-- Outcome of a Python call: normal return or a propagating exception. -/
inductive PyResult where
  | ok
  | raised (exc : String)
deriving DecidableEq

/-- Python `with tempfile.TemporaryDirectory(...) as tmp_dir:` semantics:
the directory is created on entry, the body runs, and the context
manager's exit handler removes it whether the body returned normally or
raised (the exception then propagates). The `tempfile` library is
external to the repository; this is its documented contract. -/
def withTemporaryDirectory (body : FsState → PyResult × FsState)
    (s : FsState) : PyResult × FsState :=
  let s1 : FsState := { s with stagingExists := true }
  let r := body s1
  (r.1, { r.2 with stagingExists := false })

/-- The body of the `with` block in `render_cookiecutter_cast_subproject`
(`act_operator/utils.py`): render the full template into the staging
root (may raise), `_validate_cast_directory` (raises `FileNotFoundError`
when the cast subdirectory is missing), then `_move_cast_to_target`
(may raise `OSError`); only a completed move populates the target. -/
def castRenderBody (o : CastRenderOracle) (s : FsState) :
    PyResult × FsState :=
  if o.cookiecutterRaises then (.raised "CookiecutterException", s)
  else if o.castDirRendered = false then (.raised "FileNotFoundError", s)
  else if o.moveRaises then (.raised "OSError", s)
  else (.ok, { s with targetPopulated := true })

/-- Embedding of `render_cookiecutter_cast_subproject` from
`act_operator/utils.py`: `_ensure_clean_target` removes any existing
target, then the whole fallible body runs inside the
`TemporaryDirectory` context manager. -/
def render_cookiecutter_cast_subproject (o : CastRenderOracle)
    (s : FsState) : PyResult × FsState :=
  withTemporaryDirectory (castRenderBody o)
    { s with targetPopulated := false }

theorem collapseSep_cons_cons_pos {sep c d : Char} (rest : List Char)
    (hc : c = sep) (hd : d = sep) :
    collapseSep sep (c :: d :: rest) = collapseSep sep (d :: rest) := by
  simp only [collapseSep]
  rw [if_pos (by simp [hc, hd])]

theorem collapseSep_cons_cons_neg {sep c d : Char} (rest : List Char)
    (h : ¬(c = sep ∧ d = sep)) :
    collapseSep sep (c :: d :: rest) = c :: collapseSep sep (d :: rest) := by
  simp only [collapseSep]
  rw [if_neg (by simp only [Bool.and_eq_true, decide_eq_true_eq]; exact h)]

theorem collapseSep_head (sep d : Char) (rest : List Char) :
    ∃ t, collapseSep sep (d :: rest) = d :: t := by
  induction rest generalizing d with
  | nil => exact ⟨[], rfl⟩
  | cons e rest2 ih =>
    by_cases h : d = sep ∧ e = sep
    · obtain ⟨t, ht⟩ := ih e
      refine ⟨t, ?_⟩
      rw [collapseSep_cons_cons_pos rest2 h.1 h.2, ht,
        show e = d from h.2.trans h.1.symm]
    · exact ⟨collapseSep sep (e :: rest2), collapseSep_cons_cons_neg rest2 h⟩

theorem hasDoubleSep_tail {sep c : Char} {cs : List Char}
    (h : hasDoubleSep sep (c :: cs) = false) : hasDoubleSep sep cs = false := by
  cases cs with
  | nil => rfl
  | cons d t =>
    simp only [hasDoubleSep, Bool.or_eq_false_iff] at h
    exact h.2

theorem hasDoubleSep_collapseSep (sep : Char) (l : List Char) :
    hasDoubleSep sep (collapseSep sep l) = false := by
  induction l with
  | nil => rfl
  | cons c cs ih =>
    cases cs with
    | nil => rfl
    | cons d rest =>
      by_cases h : c = sep ∧ d = sep
      · rw [collapseSep_cons_cons_pos rest h.1 h.2]
        exact ih
      · obtain ⟨t, ht⟩ := collapseSep_head sep d rest
        rw [collapseSep_cons_cons_neg rest h, ht]
        have ih2 : hasDoubleSep sep (d :: t) = false := by rw [← ht]; exact ih
        simp only [hasDoubleSep, Bool.or_eq_false_iff]
        refine ⟨?_, ih2⟩
        by_cases hc2 : c = sep <;> by_cases hd2 : d = sep <;> simp_all

theorem mem_collapseSep {sep a : Char} {l : List Char}
    (h : a ∈ collapseSep sep l) : a ∈ l := by
  induction l with
  | nil => simp [collapseSep] at h
  | cons c cs ih =>
    cases cs with
    | nil => simpa [collapseSep] using h
    | cons d rest =>
      by_cases hc : c = sep ∧ d = sep
      · rw [collapseSep_cons_cons_pos rest hc.1 hc.2] at h
        exact List.mem_cons_of_mem _ (ih h)
      · rw [collapseSep_cons_cons_neg rest hc] at h
        rcases List.mem_cons.mp h with h2 | h2
        · exact h2 ▸ List.mem_cons_self _ _
        · exact List.mem_cons_of_mem _ (ih h2)

theorem collapseSep_of_not_mem {sep : Char} {l : List Char}
    (h : sep ∉ l) : collapseSep sep l = l := by
  induction l with
  | nil => rfl
  | cons c cs ih =>
    cases cs with
    | nil => rfl
    | cons d rest =>
      have hc : c ≠ sep := fun he => h (he ▸ List.mem_cons_self _ _)
      have hcs : sep ∉ (d :: rest) := fun hm => h (List.mem_cons_of_mem _ hm)
      rw [collapseSep_cons_cons_neg rest (fun hp => hc hp.1), ih hcs]

theorem mem_collapseSep_of_mem {sep a : Char} {l : List Char}
    (hm : a ∈ l) (hne : a ≠ sep) : a ∈ collapseSep sep l := by
  induction l with
  | nil => simp at hm
  | cons c cs ih =>
    cases cs with
    | nil => simpa [collapseSep] using hm
    | cons d rest =>
      by_cases hc : c = sep ∧ d = sep
      · rw [collapseSep_cons_cons_pos rest hc.1 hc.2]
        rcases List.mem_cons.mp hm with h | h
        · exact absurd (h.trans hc.1) hne
        · exact ih h
      · rw [collapseSep_cons_cons_neg rest hc]
        rcases List.mem_cons.mp hm with h | h
        · exact h ▸ List.mem_cons_self _ _
        · exact List.mem_cons_of_mem _ (ih h)

theorem dropTrailing_front (p : Char → Bool) (l : List Char) :
    dropTrailing p l <+: l := by
  induction l with
  | nil => exact List.prefix_refl _
  | cons c cs ih =>
    simp only [dropTrailing]
    split
    · exact ⟨c :: cs, rfl⟩
    · exact (List.prefix_cons_inj c).mpr ih

theorem mem_dropTrailing_of_mem {p : Char → Bool} {a : Char} {l : List Char}
    (hm : a ∈ l) (hp : p a = false) : a ∈ dropTrailing p l := by
  induction l with
  | nil => simp at hm
  | cons c cs ih =>
    rcases List.mem_cons.mp hm with h | h
    · subst h
      simp only [dropTrailing]
      split
      · next hcond =>
        rw [Bool.and_eq_true] at hcond
        exact absurd hcond.2 (by simp [hp])
      · exact List.mem_cons_self _ _
    · have hr := ih h
      have hne : dropTrailing p cs ≠ [] := by
        intro he; rw [he] at hr; simp at hr
      simp only [dropTrailing]
      split
      · next hcond =>
        rw [Bool.and_eq_true, decide_eq_true_eq] at hcond
        exact absurd hcond.1 hne
      · exact List.mem_cons_of_mem _ hr

theorem dropTrailing_of_not_mem {sep : Char} {l : List Char}
    (h : sep ∉ l) : dropTrailing (· = sep) l = l := by
  induction l with
  | nil => rfl
  | cons c cs ih =>
    have hc : c ≠ sep := fun he => h (he ▸ List.mem_cons_self _ _)
    have hcs : sep ∉ cs := fun hm => h (List.mem_cons_of_mem _ hm)
    simp only [dropTrailing, ih hcs]
    rw [if_neg]
    simp only [Bool.and_eq_true, decide_eq_true_eq]
    exact fun hp => hc hp.2

theorem hasDoubleSep_append_left {sep : Char} {x y : List Char}
    (h : hasDoubleSep sep (x ++ y) = false) : hasDoubleSep sep x = false := by
  induction x with
  | nil => rfl
  | cons a t ih =>
    cases t with
    | nil => rfl
    | cons b t2 =>
      simp only [List.cons_append, hasDoubleSep, Bool.or_eq_false_iff] at h ⊢
      exact ⟨h.1, ih (by simpa using h.2)⟩

theorem hasDoubleSep_dropWhile {sep : Char} {p : Char → Bool} {l : List Char}
    (h : hasDoubleSep sep l = false) :
    hasDoubleSep sep (l.dropWhile p) = false := by
  induction l with
  | nil => rfl
  | cons c cs ih =>
    by_cases hp : p c = true
    · rw [List.dropWhile_cons_of_pos hp]
      exact ih (hasDoubleSep_tail h)
    · rw [List.dropWhile_cons_of_neg hp]
      exact h

theorem hasDoubleSep_dropTrailing {sep : Char} {p : Char → Bool}
    {l : List Char} (h : hasDoubleSep sep l = false) :
    hasDoubleSep sep (dropTrailing p l) = false := by
  obtain ⟨y, hy⟩ := dropTrailing_front p l
  rw [← hy] at h
  exact hasDoubleSep_append_left h

theorem headIsSep_dropWhile (sep : Char) (l : List Char) :
    headIsSep sep (l.dropWhile (· = sep)) = false := by
  induction l with
  | nil => rfl
  | cons c cs ih =>
    by_cases hc : c = sep
    · rw [List.dropWhile_cons_of_pos (by simpa using hc)]
      exact ih
    · rw [List.dropWhile_cons_of_neg (by simpa using hc)]
      simpa [headIsSep] using hc

theorem headIsSep_dropTrailing {sep : Char} {p : Char → Bool} {l : List Char}
    (h : headIsSep sep l = false) :
    headIsSep sep (dropTrailing p l) = false := by
  cases l with
  | nil => rfl
  | cons c cs =>
    simp only [dropTrailing]
    split
    · rfl
    · exact h

theorem lastIsSep_cons {sep c : Char} {l : List Char} (h : l ≠ []) :
    lastIsSep sep (c :: l) = lastIsSep sep l := by
  cases l with
  | nil => exact absurd rfl h
  | cons d t => rfl

theorem lastIsSep_dropTrailing (sep : Char) (l : List Char) :
    lastIsSep sep (dropTrailing (· = sep) l) = false := by
  induction l with
  | nil => rfl
  | cons c cs ih =>
    simp only [dropTrailing]
    split
    · rfl
    · next hcond =>
      rcases heq : dropTrailing (fun x => decide (x = sep)) cs with _ | ⟨d, t⟩
      · have hc : ¬ c = sep := fun hc0 => hcond (by simp [heq, hc0])
        simpa [lastIsSep] using hc
      · rw [heq] at ih
        rw [lastIsSep_cons (by simp)]
        exact ih

theorem pyNormalize_noDouble (sep : Char) (v : List Char) :
    hasDoubleSep sep (pyNormalize v sep) = false := by
  unfold pyNormalize stripSep
  exact hasDoubleSep_dropTrailing
    (hasDoubleSep_dropWhile (hasDoubleSep_collapseSep sep _))

theorem pyNormalize_head (sep : Char) (v : List Char) :
    headIsSep sep (pyNormalize v sep) = false := by
  unfold pyNormalize stripSep
  exact headIsSep_dropTrailing (headIsSep_dropWhile sep _)

theorem pyNormalize_last (sep : Char) (v : List Char) :
    lastIsSep sep (pyNormalize v sep) = false := by
  unfold pyNormalize stripSep
  exact lastIsSep_dropTrailing sep _

theorem pyLower_ne_sep {c : Char} (h : pyIsAlnum c = true) :
    pyLower c ≠ '-' ∧ pyLower c ≠ '_' := by
  unfold pyLower
  split
  all_goals first
    | exact ⟨by decide, by decide⟩
    | exact ⟨fun he => absurd (he ▸ h) (by decide),
        fun he => absurd (he ▸ h) (by decide)⟩

theorem underscore_not_mem_cleaned (v : List Char) :
    '_' ∉ v.map (cleanedChar '-') := by
  intro hm
  obtain ⟨c, hc, he⟩ := List.mem_map.mp hm
  unfold cleanedChar at he
  split at he
  · next ha => exact (pyLower_ne_sep ha).2 he
  · exact absurd he (by decide)

theorem mem_dropWhile_of_ne {sep a : Char} {l : List Char}
    (hm : a ∈ l) (hne : a ≠ sep) : a ∈ l.dropWhile (· = sep) := by
  induction l with
  | nil => simp at hm
  | cons c cs ih =>
    by_cases hc : c = sep
    · rw [List.dropWhile_cons_of_pos (by simpa using hc)]
      rcases List.mem_cons.mp hm with h | h
      · exact absurd (h.trans hc) hne
      · exact ih h
    · rw [List.dropWhile_cons_of_neg (by simpa using hc)]
      exact hm

theorem dropWhile_of_not_mem {sep : Char} {l : List Char} (h : sep ∉ l) :
    l.dropWhile (· = sep) = l := by
  cases l with
  | nil => rfl
  | cons c cs =>
    have hc : ¬ c = sep := fun he => h (he ▸ List.mem_cons_self _ _)
    rw [List.dropWhile_cons_of_neg (by simpa using hc)]

theorem pyNormalize_ne_nil {v : List Char} {sep c : Char}
    (hm : c ∈ v) (ha : pyIsAlnum c = true) (hsep : pyLower c ≠ sep) :
    pyNormalize v sep ≠ [] := by
  have h1 : pyLower c ∈ v.map (cleanedChar sep) :=
    List.mem_map.mpr ⟨c, hm, by simp [cleanedChar, ha]⟩
  have h2 := mem_collapseSep_of_mem h1 hsep
  have h3 := mem_dropWhile_of_ne h2 hsep
  have h4 := mem_dropTrailing_of_mem (p := (· = sep)) h3 (by simp [hsep])
  unfold pyNormalize stripSep
  exact List.ne_nil_of_mem h4

theorem pyNormalize_eq_nil {v : List Char} {sep : Char}
    (h : ∀ c ∈ v, pyIsAlnum c = false) : pyNormalize v sep = [] := by
  have hall : ∀ x ∈ collapseSep sep (v.map (cleanedChar sep)), x = sep := by
    intro x hx
    obtain ⟨c, hc, he⟩ := List.mem_map.mp (mem_collapseSep hx)
    rw [← he]
    simp [cleanedChar, h c hc]
  unfold pyNormalize stripSep
  have hdw : (collapseSep sep (v.map (cleanedChar sep))).dropWhile
      (· = sep) = [] := by
    rw [List.dropWhile_eq_nil_iff]
    intro x hx
    simpa using hall x hx
  rw [hdw]
  rfl

theorem build_name_variants_ok {raw : List Char} {v : NameVariants}
    (h : build_name_variants raw = .ok v) :
    pyStrip raw ≠ [] ∧
    v.raw = pyStrip raw ∧
    v.slug = pyNormalize (pyStrip raw) '-' ∧
    v.snake = pyNormalize (pyStrip raw) '_' ∧
    v.title = pyTitle (replaceChar '-' ' ' (replaceChar '_' ' ' (pyStrip raw))) ∧
    v.pascal = removeChar ' ' v.title ∧
    v.slug ≠ [] ∧ v.snake ≠ [] := by
  simp only [build_name_variants] at h
  split at h
  · exact absurd h (by simp)
  · next hne =>
    split at h
    · exact absurd h (by simp)
    · next hok =>
      simp only [Except.ok.injEq] at h
      subst h
      simp only [Bool.or_eq_true, decide_eq_true_eq, not_or] at hok
      exact ⟨hne, rfl, rfl, rfl, rfl, rfl, hok.1, hok.2⟩

/-- C7: whenever `build_name_variants` succeeds, the returned `slug` and
`snake` are non-empty, contain no two consecutive separator characters,
and have no leading or trailing separator (`-` for slug, `_` for snake). -/
theorem c7_slug_snake_separator_shape {raw : List Char} {v : NameVariants}
    (h : build_name_variants raw = .ok v) :
    v.slug ≠ [] ∧ v.snake ≠ [] ∧
    hasDoubleSep '-' v.slug = false ∧ headIsSep '-' v.slug = false ∧
    lastIsSep '-' v.slug = false ∧
    hasDoubleSep '_' v.snake = false ∧ headIsSep '_' v.snake = false ∧
    lastIsSep '_' v.snake = false := by
  obtain ⟨-, -, hslug, hsnake, -, -, hs1, hs2⟩ := build_name_variants_ok h
  exact ⟨hs1, hs2,
    hslug ▸ pyNormalize_noDouble '-' _, hslug ▸ pyNormalize_head '-' _,
    hslug ▸ pyNormalize_last '-' _,
    hsnake ▸ pyNormalize_noDouble '_' _, hsnake ▸ pyNormalize_head '_' _,
    hsnake ▸ pyNormalize_last '_' _⟩

/-- Witness for C7 at the concrete input "My  Cool--Project". -/
theorem c7_slug_snake_separator_shape_witness :
    "my-cool-project".toList ≠ ([] : List Char) ∧
    "my_cool_project".toList ≠ ([] : List Char) ∧
    hasDoubleSep '-' "my-cool-project".toList = false ∧
    headIsSep '-' "my-cool-project".toList = false ∧
    lastIsSep '-' "my-cool-project".toList = false ∧
    hasDoubleSep '_' "my_cool_project".toList = false ∧
    headIsSep '_' "my_cool_project".toList = false ∧
    lastIsSep '_' "my_cool_project".toList = false :=
  @c7_slug_snake_separator_shape "My  Cool--Project".toList
    { raw := "My  Cool--Project".toList
      slug := "my-cool-project".toList
      snake := "my_cool_project".toList
      title := "My  Cool  Project".toList
      pascal := "MyCoolProject".toList } rfl

/-- C1 counterexample: the input "123!!!" does not fail; `build_name_variants`
returns a full `NameVariants` record for it (slug and snake "123"), even
though its first character is not a letter and it contains characters
outside letters/digits/spaces/hyphens/underscores. -/
theorem c1_counterexample_123_succeeds :
    build_name_variants "123!!!".toList =
      .ok { raw := "123!!!".toList
            slug := "123".toList
            snake := "123".toList
            title := "123!!!".toList
            pascal := "123!!!".toList } := rfl

/-- C1 (amended): `build_name_variants` fails exactly when the trimmed
input is empty or contains no alphanumeric character; no first-letter or
charset validation is performed. -/
theorem c1_amended_failure_iff (raw : List Char) :
    (build_name_variants raw).isOk = false ↔
      (pyStrip raw = [] ∨ ∀ c ∈ pyStrip raw, pyIsAlnum c = false) := by
  by_cases h1 : pyStrip raw = []
  · constructor
    · intro _
      exact Or.inl h1
    · intro _
      simp [build_name_variants, h1, Except.isOk, Except.toBool]
  · by_cases h2 : ∀ c ∈ pyStrip raw, pyIsAlnum c = false
    · constructor
      · intro _
        exact Or.inr h2
      · intro _
        have hnil : pyNormalize (pyStrip raw) '-' = [] := pyNormalize_eq_nil h2
        simp [build_name_variants, h1, hnil, Except.isOk, Except.toBool]
    · have h3 : ∃ c ∈ pyStrip raw, pyIsAlnum c = true := by
        push_neg at h2
        obtain ⟨c, hc, hne⟩ := h2
        exact ⟨c, hc, by simpa using hne⟩
      obtain ⟨c, hc, ha⟩ := h3
      have hslug : pyNormalize (pyStrip raw) '-' ≠ [] :=
        pyNormalize_ne_nil hc ha (pyLower_ne_sep ha).1
      have hsnake : pyNormalize (pyStrip raw) '_' ≠ [] :=
        pyNormalize_ne_nil hc ha (pyLower_ne_sep ha).2
      constructor
      · intro hfail
        exfalso
        simp [build_name_variants, h1, hslug, hsnake, Except.isOk, Except.toBool] at hfail
      · intro hdisj
        rcases hdisj with hdisj | hdisj
        · exact absurd hdisj h1
        · exact absurd (hdisj c hc) (by simp [ha])

/-- C8 counterexample: the non-ASCII letter é is not replaced by the
separator — `build_name_variants` on "Café!" keeps é in slug and snake
(Python `str.isalnum` is Unicode-aware), whereas the claim predicts slug
"caf". -/
theorem c8_counterexample_e_acute_preserved :
    build_name_variants "Café!".toList =
      .ok { raw := "Café!".toList
            slug := "café".toList
            snake := "café".toList
            title := "Café!".toList
            pascal := "Café!".toList } ∧
    'é' ∈ "café".toList := ⟨rfl, by decide⟩

/-- C8 (amended): characters that Python classifies as alphanumeric —
including the modelled non-ASCII letters — are preserved (lowercased) by
`_normalize` rather than replaced by the separator. -/
theorem c8_amended_alnum_preserved {cs : List Char} {sep : Char}
    (hsep : sep = '-' ∨ sep = '_') (h : ∀ c ∈ cs, pyIsAlnum c = true) :
    pyNormalize cs sep = cs.map pyLower := by
  have hnm : sep ∉ cs.map pyLower := by
    intro hm
    obtain ⟨c, hc, he⟩ := List.mem_map.mp hm
    rcases hsep with rfl | rfl
    · exact (pyLower_ne_sep (h c hc)).1 he
    · exact (pyLower_ne_sep (h c hc)).2 he
  have hclean : cs.map (cleanedChar sep) = cs.map pyLower := by
    apply List.map_congr_left
    intro c hc
    simp [cleanedChar, h c hc]
  unfold pyNormalize stripSep
  rw [hclean, collapseSep_of_not_mem hnm, dropWhile_of_not_mem hnm,
    dropTrailing_of_not_mem hnm]

/-- Witness for C8 (amended) at the concrete input "Café". -/
theorem c8_amended_alnum_preserved_witness :
    ('-' = '-' ∨ '-' = '_') ∧
    pyNormalize "Café".toList '-' = "Café".toList.map pyLower :=
  ⟨Or.inl rfl,
    @c8_amended_alnum_preserved "Café".toList '-'
      (Or.inl rfl) (by decide)⟩

theorem replaceChar_map_cleaned (v : List Char) :
    replaceChar '-' '_' (v.map (cleanedChar '-')) = v.map (cleanedChar '_') := by
  unfold replaceChar
  rw [List.map_map]
  apply List.map_congr_left
  intro c _
  simp only [Function.comp_apply]
  by_cases ha : pyIsAlnum c = true
  · simp only [cleanedChar, ha, if_true]
    rw [if_neg (pyLower_ne_sep ha).1]
  · simp [cleanedChar, ha]

theorem swap_eq_underscore_iff {c : Char} (h : c ≠ '_') :
    (if c = '-' then '_' else c) = '_' ↔ c = '-' := by
  by_cases hc : c = '-'
  · simp [hc]
  · simp [hc, h]

theorem collapse_swap {l : List Char} (h : '_' ∉ l) :
    replaceChar '-' '_' (collapseSep '-' l) =
      collapseSep '_' (replaceChar '-' '_' l) := by
  induction l with
  | nil => rfl
  | cons c cs ih =>
    cases cs with
    | nil => rfl
    | cons d rest =>
      have hc : c ≠ '_' := fun he => h (he ▸ List.mem_cons_self _ _)
      have hd : d ≠ '_' :=
        fun he => h (List.mem_cons_of_mem _ (he ▸ List.mem_cons_self _ _))
      have htl : '_' ∉ (d :: rest) := fun hm => h (List.mem_cons_of_mem _ hm)
      by_cases hcd : c = '-' ∧ d = '-'
      · rw [collapseSep_cons_cons_pos rest hcd.1 hcd.2]
        have hrepl : replaceChar '-' '_' (c :: d :: rest) =
            '_' :: '_' :: (replaceChar '-' '_' rest) := by
          simp [replaceChar, hcd.1, hcd.2]
        rw [hrepl,
          collapseSep_cons_cons_pos (replaceChar '-' '_' rest) rfl rfl]
        have : replaceChar '-' '_' (d :: rest) =
            '_' :: replaceChar '-' '_' rest := by
          simp [replaceChar, hcd.2]
        rw [← this]
        exact ih htl
      · have hrepl : replaceChar '-' '_' (c :: d :: rest) =
            (if c = '-' then '_' else c) :: (if d = '-' then '_' else d)
              :: (replaceChar '-' '_' rest) := by
          simp [replaceChar]
        have hswapcd : ¬((if c = '-' then '_' else c) = '_' ∧
            (if d = '-' then '_' else d) = '_') := by
          intro hcontra
          exact hcd ⟨(swap_eq_underscore_iff hc).mp hcontra.1,
            (swap_eq_underscore_iff hd).mp hcontra.2⟩
        have hcons : replaceChar '-' '_' (c :: collapseSep '-' (d :: rest)) =
            (if c = '-' then '_' else c) ::
              replaceChar '-' '_' (collapseSep '-' (d :: rest)) := by
          simp [replaceChar]
        have hd2 : replaceChar '-' '_' (d :: rest) =
            (if d = '-' then '_' else d) :: replaceChar '-' '_' rest := by
          simp [replaceChar]
        rw [collapseSep_cons_cons_neg rest hcd, hcons, ih htl, hrepl,
          collapseSep_cons_cons_neg (replaceChar '-' '_' rest) hswapcd, hd2]

theorem dropWhile_swap {l : List Char} (h : '_' ∉ l) :
    replaceChar '-' '_' (l.dropWhile (· = '-')) =
      (replaceChar '-' '_' l).dropWhile (· = '_') := by
  induction l with
  | nil => rfl
  | cons c cs ih =>
    have hc : c ≠ '_' := fun he => h (he ▸ List.mem_cons_self _ _)
    have htl : '_' ∉ cs := fun hm => h (List.mem_cons_of_mem _ hm)
    have hrepl : replaceChar '-' '_' (c :: cs) =
        (if c = '-' then '_' else c) :: replaceChar '-' '_' cs := by
      simp [replaceChar]
    by_cases hcd : c = '-'
    · rw [List.dropWhile_cons_of_pos (by simpa using hcd), hrepl,
        List.dropWhile_cons_of_pos (by
          simp only [decide_eq_true_eq]
          exact (swap_eq_underscore_iff hc).mpr hcd)]
      exact ih htl
    · rw [List.dropWhile_cons_of_neg (by simpa using hcd), hrepl,
        List.dropWhile_cons_of_neg (by
          simp only [decide_eq_true_eq]
          exact fun he => hcd ((swap_eq_underscore_iff hc).mp he))]

theorem dropTrailing_swap {l : List Char} (h : '_' ∉ l) :
    replaceChar '-' '_' (dropTrailing (· = '-') l) =
      dropTrailing (· = '_') (replaceChar '-' '_' l) := by
  induction l with
  | nil => rfl
  | cons c cs ih =>
    have hc : c ≠ '_' := fun he => h (he ▸ List.mem_cons_self _ _)
    have htl : '_' ∉ cs := fun hm => h (List.mem_cons_of_mem _ hm)
    have hrepl : replaceChar '-' '_' (c :: cs) =
        (if c = '-' then '_' else c) :: replaceChar '-' '_' cs := by
      simp [replaceChar]
    have hihtl := ih htl
    have hnilEq : (dropTrailing (· = '_') (replaceChar '-' '_' cs) = []) ↔
        (dropTrailing (· = '-') cs = []) := by
      rw [← hihtl]
      constructor
      · intro he
        rcases heq : dropTrailing (fun x => decide (x = '-')) cs with _ | ⟨d, t⟩
        · rfl
        · rw [heq] at he
          simp [replaceChar] at he
      · intro he
        rw [he]
        rfl
    by_cases hr : dropTrailing (fun x => decide (x = '-')) cs = []
    · have hr2 : dropTrailing (fun x => decide (x = '_'))
          (replaceChar '-' '_' cs) = [] := hnilEq.mpr hr
      simp only [replaceChar] at hr2
      by_cases hcd : c = '-'
      · subst hcd
        simp [dropTrailing, replaceChar, hr, hr2]
      · simp [dropTrailing, replaceChar, hr, hr2, hcd, hc]
    · have hr2 : ¬ dropTrailing (fun x => decide (x = '_'))
          (replaceChar '-' '_' cs) = [] :=
        fun he => hr (hnilEq.mp he)
      simp only [replaceChar] at hr2 hihtl
      simp [dropTrailing, replaceChar, hr, hr2, hihtl]

theorem pyNormalize_snake_eq_slug (v : List Char) :
    pyNormalize v '_' = replaceChar '-' '_' (pyNormalize v '-') := by
  have h0 : '_' ∉ v.map (cleanedChar '-') := underscore_not_mem_cleaned v
  have h1 : '_' ∉ collapseSep '-' (v.map (cleanedChar '-')) :=
    fun hm => h0 (mem_collapseSep hm)
  have h2 : '_' ∉ (collapseSep '-' (v.map (cleanedChar '-'))).dropWhile
      (· = '-') :=
    fun hm => h1 ((List.dropWhile_sublist _).subset hm)
  unfold pyNormalize stripSep
  rw [dropTrailing_swap h2, dropWhile_swap h1, collapse_swap h0,
    replaceChar_map_cleaned]

/-- C10: whenever `build_name_variants` succeeds, `snake` equals `slug`
with every hyphen replaced by an underscore, `slug` contains no
underscore, and `snake` contains no hyphen. -/
theorem c10_snake_is_slug_with_underscores {raw : List Char}
    {v : NameVariants} (h : build_name_variants raw = .ok v) :
    v.snake = replaceChar '-' '_' v.slug ∧ '_' ∉ v.slug ∧ '-' ∉ v.snake := by
  obtain ⟨-, -, hslug, hsnake, -, -, -, -⟩ := build_name_variants_ok h
  have hmain : v.snake = replaceChar '-' '_' v.slug := by
    rw [hslug, hsnake, pyNormalize_snake_eq_slug]
  refine ⟨hmain, ?_, ?_⟩
  · rw [hslug]
    intro hm
    unfold pyNormalize stripSep at hm
    exact underscore_not_mem_cleaned _
      (mem_collapseSep ((List.dropWhile_sublist _).subset
        ((dropTrailing_front _ _).sublist.subset hm)))
  · rw [hmain]
    intro hm
    obtain ⟨c, _, he⟩ := List.mem_map.mp hm
    by_cases h2 : c = '-'
    · rw [if_pos h2] at he
      exact absurd he (by decide)
    · rw [if_neg h2] at he
      exact h2 he

/-- Witness for C10 at the concrete input "My Cool-Project". -/
theorem c10_snake_is_slug_with_underscores_witness :
    "my_cool_project".toList =
      replaceChar '-' '_' "my-cool-project".toList ∧
    '_' ∉ "my-cool-project".toList ∧ '-' ∉ "my_cool_project".toList :=
  @c10_snake_is_slug_with_underscores "My Cool-Project".toList
    { raw := "My Cool-Project".toList
      slug := "my-cool-project".toList
      snake := "my_cool_project".toList
      title := "My Cool Project".toList
      pascal := "MyCoolProject".toList } rfl

/-- C3 counterexample: on the input "1 a", `build_name_variants` succeeds
although the derived `pascal` "1A" is not a valid identifier (it starts
with a digit); the claimed `InvalidNameError` is never raised. -/
theorem c3_counterexample_invalid_pascal_accepted :
    build_name_variants "1 a".toList =
      .ok { raw := "1 a".toList
            slug := "1-a".toList
            snake := "1_a".toList
            title := "1 A".toList
            pascal := "1A".toList } ∧
    specValidIdentifier "1A".toList = false := ⟨rfl, rfl⟩

theorem pyUpper_isAlpha {c : Char} (h : c.isAlpha = true) :
    (pyUpper c).isAlpha = true := by
  unfold pyUpper
  split
  all_goals first
    | decide
    | exact h

theorem pyLower_isAlpha {c : Char} (h : c.isAlpha = true) :
    (pyLower c).isAlpha = true := by
  unfold pyLower
  split
  all_goals first
    | decide
    | exact h

theorem pyTitleGo_chars {m : List Char}
    (hm : ∀ e ∈ m, (e.isAlpha || e.isDigit || e = ' ') = true) :
    ∀ b, ∀ x ∈ pyTitleGo b m, (x.isAlpha || x.isDigit || x = ' ') = true := by
  induction m with
  | nil =>
    intro b x hx
    simp [pyTitleGo] at hx
  | cons e m2 ih =>
    intro b x hx
    have he := hm e (List.mem_cons_self _ _)
    have hm2 : ∀ e2 ∈ m2, (e2.isAlpha || e2.isDigit || e2 = ' ') = true :=
      fun e2 h2 => hm e2 (List.mem_cons_of_mem _ h2)
    simp only [pyTitleGo, List.mem_cons] at hx
    rcases hx with hx | hx
    · subst hx
      by_cases hcase : pyIsCased e = true
      · have healpha : e.isAlpha = true := by
          simp only [pyIsCased, Bool.or_eq_true, decide_eq_true_eq] at hcase
          rcases hcase with (h1 | h1) | h1
          · exact h1
          · rw [h1] at he
            exact absurd he (by decide)
          · rw [h1] at he
            exact absurd he (by decide)
        rw [if_pos hcase]
        cases b
        · simp [pyUpper_isAlpha healpha]
        · simp [pyLower_isAlpha healpha]
      · rw [if_neg hcase]
        exact he
    · exact ih hm2 (pyIsCased e) x hx

theorem replaced_chars {l : List Char}
    (h : ∀ c ∈ l,
      (c.isAlpha || c.isDigit || c = ' ' || c = '-' || c = '_') = true) :
    ∀ x ∈ replaceChar '-' ' ' (replaceChar '_' ' ' l),
      (x.isAlpha || x.isDigit || x = ' ') = true := by
  intro x hx
  unfold replaceChar at hx
  rw [List.map_map] at hx
  obtain ⟨c, hc, he⟩ := List.mem_map.mp hx
  have hcl := h c hc
  rw [← he]
  simp only [Function.comp_apply]
  by_cases h1 : c = '_'
  · simp [h1]
  · by_cases h2 : c = '-'
    · simp [h1, h2]
    · simp only [if_neg h1, if_neg h2]
      simp only [Bool.or_eq_true, decide_eq_true_eq] at hcl ⊢
      rcases hcl with ((((ha | hb) | hsp) | hd) | hu)
      · exact Or.inl (Or.inl ha)
      · exact Or.inl (Or.inr hb)
      · exact Or.inr hsp
      · exact absurd hd h2
      · exact absurd hu h1

/-- C3 (amended): `build_name_variants` performs no identifier check on
`pascal`; however, when the trimmed input starts with an ASCII letter and
every character is an ASCII letter, digit, space, hyphen, or underscore,
the call succeeds and the derived `pascal` is a valid identifier. -/
theorem c3_amended_pascal_valid {raw : List Char} {c : Char} {cs : List Char}
    (hhead : pyStrip raw = c :: cs) (hc : c.isAlpha = true)
    (hchar : ∀ d ∈ pyStrip raw,
      (d.isAlpha || d.isDigit || d = ' ' || d = '-' || d = '_') = true) :
    ∃ v, build_name_variants raw = .ok v ∧
      specValidIdentifier v.pascal = true := by
  have halnum : pyIsAlnum c = true := by simp [pyIsAlnum, hc]
  have hmem : c ∈ pyStrip raw := hhead ▸ List.mem_cons_self c cs
  have hne : pyStrip raw ≠ [] := by rw [hhead]; simp
  have hslug := pyNormalize_ne_nil hmem halnum (pyLower_ne_sep halnum).1
  have hsnake := pyNormalize_ne_nil hmem halnum (pyLower_ne_sep halnum).2
  refine ⟨{ raw := pyStrip raw
            slug := pyNormalize (pyStrip raw) '-'
            snake := pyNormalize (pyStrip raw) '_'
            title := pyTitle
              (replaceChar '-' ' ' (replaceChar '_' ' ' (pyStrip raw)))
            pascal := removeChar ' ' (pyTitle
              (replaceChar '-' ' ' (replaceChar '_' ' ' (pyStrip raw)))) },
    ?_, ?_⟩
  · simp only [build_name_variants]
    rw [if_neg hne]
    rw [if_neg (by simp [hslug, hsnake])]
  · have hcne1 : c ≠ '_' := by
      intro he
      rw [he] at hc
      exact absurd hc (by decide)
    have hcne2 : c ≠ '-' := by
      intro he
      rw [he] at hc
      exact absurd hc (by decide)
    have hucons : replaceChar '-' ' ' (replaceChar '_' ' ' (pyStrip raw)) =
        c :: replaceChar '-' ' ' (replaceChar '_' ' ' cs) := by
      rw [hhead]
      simp [replaceChar, hcne1, hcne2]
    have hcased : pyIsCased c = true := by simp [pyIsCased, hc]
    have htit :
        pyTitle (replaceChar '-' ' ' (replaceChar '_' ' ' (pyStrip raw))) =
        pyUpper c ::
          pyTitleGo true (replaceChar '-' ' ' (replaceChar '_' ' ' cs)) := by
      rw [hucons]
      simp [pyTitle, pyTitleGo, hcased]
    have hupperAlpha := pyUpper_isAlpha hc
    have hupperNe : pyUpper c ≠ ' ' := by
      intro he
      rw [he] at hupperAlpha
      exact absurd hupperAlpha (by decide)
    have hrem :
        removeChar ' '
          (pyTitle (replaceChar '-' ' ' (replaceChar '_' ' ' (pyStrip raw)))) =
        pyUpper c :: removeChar ' '
          (pyTitleGo true (replaceChar '-' ' ' (replaceChar '_' ' ' cs))) := by
      rw [htit]
      simp [removeChar, hupperNe]
    simp only [hrem, specValidIdentifier, Bool.and_eq_true]
    refine ⟨hupperAlpha, ?_⟩
    rw [List.all_eq_true]
    intro x hx
    have hx2 := List.mem_filter.mp hx
    have hxne : x ≠ ' ' := by simpa using hx2.2
    have hcharcs : ∀ d ∈ cs,
        (d.isAlpha || d.isDigit || d = ' ' || d = '-' || d = '_') = true :=
      fun d hd => hchar d (hhead ▸ List.mem_cons_of_mem _ hd)
    have hclass := pyTitleGo_chars (replaced_chars hcharcs) true x hx2.1
    simp only [Bool.or_eq_true, decide_eq_true_eq] at hclass ⊢
    rcases hclass with (ha | hb) | hsp
    · exact Or.inl (Or.inl ha)
    · exact Or.inl (Or.inr hb)
    · exact absurd hsp hxne

/-- Witness for C3 (amended) at the concrete input "My Cool Project". -/
theorem c3_amended_pascal_valid_witness :
    pyStrip "My Cool Project".toList = 'M' :: "y Cool Project".toList ∧
    ('M').isAlpha = true ∧
    (∃ v, build_name_variants "My Cool Project".toList = .ok v ∧
      specValidIdentifier v.pascal = true) :=
  ⟨rfl, rfl,
    @c3_amended_pascal_valid "My Cool Project".toList 'M'
      "y Cool Project".toList rfl rfl (by decide)⟩

theorem lookupField_setField_ne {fs : List (String × JVal)} {k k2 : String}
    {v : JVal} (h : k2 ≠ k) :
    lookupField (setField fs k v) k2 = lookupField fs k2 := by
  induction fs with
  | nil => rfl
  | cons kv rest ih =>
    obtain ⟨k1, v1⟩ := kv
    by_cases h1 : k1 = k
    · have hne : ¬ k1 = k2 := fun he => h (he ▸ h1)
      simp only [setField, if_pos h1, lookupField]
      rw [if_neg hne, if_neg hne]
    · simp only [setField, if_neg h1, lookupField]
      by_cases h2 : k1 = k2
      · rw [if_pos h2, if_pos h2]
      · rw [if_neg h2, if_neg h2, ih]

theorem lookupField_setField_self {fs : List (String × JVal)} {k : String}
    {v w : JVal} (h : lookupField fs k = some w) :
    lookupField (setField fs k v) k = some v := by
  induction fs with
  | nil => simp [lookupField] at h
  | cons kv rest ih =>
    obtain ⟨k1, v1⟩ := kv
    by_cases h1 : k1 = k
    · simp only [setField, if_pos h1, lookupField]
    · simp only [setField, if_neg h1, lookupField] at h ⊢
      exact ih h

theorem lookupField_append_some {fs more : List (String × JVal)} {k : String}
    {w : JVal} (h : lookupField fs k = some w) :
    lookupField (fs ++ more) k = some w := by
  induction fs with
  | nil => simp [lookupField] at h
  | cons kv rest ih =>
    obtain ⟨k1, v1⟩ := kv
    simp only [lookupField, List.cons_append] at h ⊢
    by_cases h1 : k1 = k
    · rw [if_pos h1] at h ⊢
      exact h
    · rw [if_neg h1] at h ⊢
      exact ih h

theorem lookupField_append_none {fs more : List (String × JVal)} {k : String}
    (h : lookupField fs k = none) :
    lookupField (fs ++ more) k = lookupField more k := by
  induction fs with
  | nil => rfl
  | cons kv rest ih =>
    obtain ⟨k1, v1⟩ := kv
    simp only [lookupField, List.cons_append] at h ⊢
    by_cases h1 : k1 = k
    · rw [if_pos h1] at h
      exact absurd h (by simp)
    · rw [if_neg h1] at h ⊢
      exact ih h

theorem lookupField_single_ne {k k2 : String} {v : JVal} (h : k2 ≠ k) :
    lookupField [(k, v)] k2 = none := by
  simp only [lookupField]
  rw [if_neg (fun he => h he.symm)]

theorem lookupField_setdefault_self (fs : List (String × JVal)) (k : String)
    (d : JVal) :
    lookupField (setdefaultField fs k d).2 k = some (setdefaultField fs k d).1 := by
  unfold setdefaultField
  rcases h : lookupField fs k with _ | v
  · show lookupField (fs ++ [(k, d)]) k = some d
    rw [lookupField_append_none h]
    simp [lookupField]
  · exact h

theorem lookupField_setdefault_ne {fs : List (String × JVal)} {k k2 : String}
    (d : JVal) (h : k2 ≠ k) :
    lookupField (setdefaultField fs k d).2 k2 = lookupField fs k2 := by
  unfold setdefaultField
  rcases hf : lookupField fs k with _ | v
  · show lookupField (fs ++ [(k, d)]) k2 = lookupField fs k2
    rcases h2 : lookupField fs k2 with _ | w
    · rw [lookupField_append_none h2, lookupField_single_ne h]
    · rw [lookupField_append_some h2]
  · rfl

theorem mem_insertSorted {s x : String} {l : List String} :
    x ∈ insertSorted s l ↔ x = s ∨ x ∈ l := by
  induction l with
  | nil => simp [insertSorted]
  | cons t ts ih =>
    unfold insertSorted
    by_cases h : pyStrLe s t = true
    · rw [if_pos h]
      simp [List.mem_cons]
    · rw [if_neg h]
      simp only [List.mem_cons, ih]
      tauto

theorem mem_sortStrings {x : String} {l : List String} :
    x ∈ sortStrings l ↔ x ∈ l := by
  induction l with
  | nil => simp [sortStrings]
  | cons s ss ih =>
    unfold sortStrings
    rw [mem_insertSorted, ih]
    simp [List.mem_cons]

theorem any_jstr_of_mem {s : String} {l : List String} (h : s ∈ l) :
    (l.map JVal.jstr).any (jvalEqStr · s) = true := by
  rw [List.any_eq_true]
  exact ⟨.jstr s, List.mem_map_of_mem _ h, by simp [jvalEqStr]⟩

theorem addCastDependency_preserves {payload p1 : List (String × JVal)}
    {cast_snake k : String} (hk : k ≠ "dependencies")
    (h : addCastDependency payload cast_snake = some p1) :
    lookupField p1 k = lookupField payload k := by
  simp only [addCastDependency] at h
  have hsd := @lookupField_setdefault_ne payload "dependencies" k
    (JVal.jarr [JVal.jstr "."]) hk
  split at h
  · next deps heq =>
    split at h
    · rw [← Option.some_inj.mp h]
      exact hsd
    · split at h
      · next strs heq2 =>
        rw [← Option.some_inj.mp h, lookupField_setField_ne hk]
        exact hsd
      · exact absurd h (by simp)
  · next s heq =>
    split at h
    · rw [← Option.some_inj.mp h]
      exact hsd
    · exact absurd h (by simp)
  · next inner heq =>
    split at h
    · rw [← Option.some_inj.mp h]
      exact hsd
    · exact absurd h (by simp)
  · exact absurd h (by simp)

theorem addCastGraph_preserves {payload p2 : List (String × JVal)}
    {cast_snake k : String} (hk : k ≠ "graphs")
    (h : addCastGraph payload cast_snake = some p2) :
    lookupField p2 k = lookupField payload k := by
  simp only [addCastGraph] at h
  have hsd := @lookupField_setdefault_ne payload "graphs" k
    (JVal.jobj []) hk
  split at h
  · next gs heq =>
    split at h
    · rw [← Option.some_inj.mp h]
      exact hsd
    · rw [← Option.some_inj.mp h, lookupField_setField_ne hk]
      exact hsd
  · exact absurd h (by simp)

theorem addCastGraph_of_present {p1 : List (String × JVal)}
    {cast_snake : String} {gs : List (String × JVal)}
    (hg : lookupField p1 "graphs" = some (.jobj gs))
    (hk : (lookupField gs cast_snake).isSome = true) :
    addCastGraph p1 cast_snake = some p1 := by
  obtain ⟨w, hl⟩ := Option.isSome_iff_exists.mp hk
  simp only [addCastGraph, setdefaultField, hg, hl]

/-- C2: the registry mutation is set-if-absent on the `graphs` mapping —
when the identifier key is already present, its (possibly user-edited)
entry-point reference is left unchanged by `update_langgraph_registry`. -/
theorem c2_graphs_set_if_absent {payload r : List (String × JVal)}
    {cast_snake : String} {gs : List (String × JVal)} {w : JVal}
    (hg : lookupField payload "graphs" = some (.jobj gs))
    (hk : lookupField gs cast_snake = some w)
    (hr : update_langgraph_registry payload cast_snake = some r) :
    ∃ gs2, lookupField r "graphs" = some (.jobj gs2) ∧
      lookupField gs2 cast_snake = some w := by
  unfold update_langgraph_registry at hr
  rcases hdep : addCastDependency payload cast_snake with _ | p1
  · rw [hdep] at hr
    simp at hr
  · rw [hdep] at hr
    simp only [Option.some_bind] at hr
    have hg1 : lookupField p1 "graphs" = some (.jobj gs) := by
      rw [addCastDependency_preserves (by decide) hdep]
      exact hg
    rw [addCastGraph_of_present hg1 (by simp [hk])] at hr
    rw [← Option.some_inj.mp hr]
    exact ⟨gs, hg1, hk⟩

/-- Witness for C2: a registry whose `graphs` maps "alpha" to a custom
reference keeps that exact value across a mutation call for "alpha". -/
theorem c2_graphs_set_if_absent_witness :
    lookupField [("graphs", JVal.jobj [("alpha", JVal.jstr "custom")])]
      "graphs" = some (.jobj [("alpha", JVal.jstr "custom")]) ∧
    lookupField [("alpha", JVal.jstr "custom")] "alpha" =
      some (JVal.jstr "custom") ∧
    (∃ gs2,
      lookupField
        [("graphs", JVal.jobj [("alpha", JVal.jstr "custom")]),
         ("dependencies",
           JVal.jarr [JVal.jstr ".", JVal.jstr "./casts/alpha"])]
        "graphs" = some (.jobj gs2) ∧
      lookupField gs2 "alpha" = some (JVal.jstr "custom")) :=
  ⟨rfl, rfl,
    @c2_graphs_set_if_absent
      [("graphs", JVal.jobj [("alpha", JVal.jstr "custom")])] _ _ _ _
      rfl rfl rfl⟩

theorem addCastDependency_of_present {p : List (String × JVal)}
    {cast_snake : String} {D : JVal}
    (hd : lookupField p "dependencies" = some D)
    (hp : depPresent D ("./casts/" ++ cast_snake) = true) :
    addCastDependency p cast_snake = some p := by
  simp only [addCastDependency, setdefaultField, hd]
  cases D with
  | jarr deps =>
    simp only [depPresent] at hp
    dsimp only
    rw [if_pos hp]
  | jstr s =>
    simp only [depPresent] at hp
    dsimp only
    rw [if_pos hp]
  | jobj inner =>
    simp only [depPresent] at hp
    dsimp only
    rw [if_pos hp]
  | jnum n => simp [depPresent] at hp
  | jbool b => simp [depPresent] at hp
  | jnull => simp [depPresent] at hp

theorem addCastDependency_gives {p p1 : List (String × JVal)}
    {cast_snake : String}
    (h : addCastDependency p cast_snake = some p1) :
    ∃ D, lookupField p1 "dependencies" = some D ∧
      depPresent D ("./casts/" ++ cast_snake) = true := by
  have hself := lookupField_setdefault_self p "dependencies"
    (JVal.jarr [JVal.jstr "."])
  simp only [addCastDependency] at h
  split at h
  · next deps heq =>
    split at h
    · next hany =>
      refine ⟨.jarr deps, ?_, by simpa [depPresent] using hany⟩
      rw [← Option.some_inj.mp h, hself, heq]
    · next hany =>
      split at h
      · next strs heq2 =>
        rw [← Option.some_inj.mp h]
        refine ⟨_, lookupField_setField_self (by rw [hself]), ?_⟩
        simp only [depPresent]
        apply any_jstr_of_mem
        rw [mem_sortStrings]
        exact List.mem_append_right _ (List.mem_singleton.mpr rfl)
      · exact absurd h (by simp)
  · next s0 heq =>
    split at h
    · next hsub =>
      refine ⟨.jstr s0, ?_, by simpa [depPresent] using hsub⟩
      rw [← Option.some_inj.mp h, hself, heq]
    · exact absurd h (by simp)
  · next inner heq =>
    split at h
    · next hkey =>
      refine ⟨.jobj inner, ?_, by simpa [depPresent] using hkey⟩
      rw [← Option.some_inj.mp h, hself, heq]
    · exact absurd h (by simp)
  · exact absurd h (by simp)

theorem addCastGraph_gives {p1 r : List (String × JVal)}
    {cast_snake : String}
    (h : addCastGraph p1 cast_snake = some r) :
    ∃ gs, lookupField r "graphs" = some (.jobj gs) ∧
      (lookupField gs cast_snake).isSome = true := by
  have hself := lookupField_setdefault_self p1 "graphs" (JVal.jobj [])
  simp only [addCastGraph] at h
  split at h
  · next gs heq =>
    split at h
    · next w heq2 =>
      refine ⟨gs, ?_, by simp [heq2]⟩
      rw [← Option.some_inj.mp h, hself, heq]
    · next heq2 =>
      rw [← Option.some_inj.mp h]
      refine ⟨_, lookupField_setField_self (by rw [hself]), ?_⟩
      rw [lookupField_append_none heq2, lookupField]
      simp
  · exact absurd h (by simp)

theorem update_establishes {p r : List (String × JVal)} {cast_snake : String}
    (h : update_langgraph_registry p cast_snake = some r) :
    (∃ D, lookupField r "dependencies" = some D ∧
      depPresent D ("./casts/" ++ cast_snake) = true) ∧
    (∃ gs, lookupField r "graphs" = some (.jobj gs) ∧
      (lookupField gs cast_snake).isSome = true) := by
  unfold update_langgraph_registry at h
  rcases hdep : addCastDependency p cast_snake with _ | p1
  · rw [hdep] at h
    simp at h
  · rw [hdep] at h
    simp only [Option.some_bind] at h
    obtain ⟨D, hD, hP⟩ := addCastDependency_gives hdep
    refine ⟨⟨D, ?_, hP⟩, addCastGraph_gives h⟩
    rw [addCastGraph_preserves (by decide) h]
    exact hD

/-- The registry mutation is idempotent at the level of the parsed
document: a second call with the same identifier is a no-op. -/
theorem update_langgraph_registry_idem {p r : List (String × JVal)}
    {cast_snake : String}
    (h : update_langgraph_registry p cast_snake = some r) :
    update_langgraph_registry r cast_snake = some r := by
  obtain ⟨⟨D, hD, hP⟩, ⟨gs, hG, hS⟩⟩ := update_establishes h
  unfold update_langgraph_registry
  rw [addCastDependency_of_present hD hP]
  simp only [Option.some_bind]
  exact addCastGraph_of_present hG hS

theorem mem_dropWhile_of_neg {p : Char → Bool} {a : Char} {l : List Char}
    (hm : a ∈ l) (hp : p a = false) : a ∈ l.dropWhile p := by
  induction l with
  | nil => simp at hm
  | cons c cs ih =>
    by_cases hc : p c = true
    · rw [List.dropWhile_cons_of_pos hc]
      rcases List.mem_cons.mp hm with h | h
      · rw [h] at hp
        rw [hp] at hc
        exact absurd hc (by simp)
      · exact ih h
    · rw [List.dropWhile_cons_of_neg hc]
      exact hm

theorem dropWhile_append_all {p : Char → Bool} {a : List Char}
    (b : List Char) (h : ∀ x ∈ a, p x = true) :
    (a ++ b).dropWhile p = b.dropWhile p := by
  induction a with
  | nil => rfl
  | cons c cs ih =>
    rw [List.cons_append,
      List.dropWhile_cons_of_pos (h c (List.mem_cons_self _ _))]
    exact ih fun x hx => h x (List.mem_cons_of_mem _ hx)

theorem takeWhile_append_all {p : Char → Bool} {a : List Char}
    (b : List Char) (h : ∀ x ∈ a, p x = true) :
    (a ++ b).takeWhile p = a ++ b.takeWhile p := by
  induction a with
  | nil => rfl
  | cons c cs ih =>
    rw [List.cons_append,
      List.takeWhile_cons_of_pos (h c (List.mem_cons_self _ _)),
      ih fun x hx => h x (List.mem_cons_of_mem _ hx), List.cons_append]

theorem dropTrailing_append_all {p : Char → Bool} {b : List Char}
    (a : List Char) (h : ∀ x ∈ b, p x = true) :
    dropTrailing p (a ++ b) = dropTrailing p a := by
  induction a with
  | nil =>
    rw [List.nil_append]
    induction b with
    | nil => rfl
    | cons c cs ih2 =>
      simp only [dropTrailing,
        ih2 fun x hx => h x (List.mem_cons_of_mem _ hx)]
      rw [if_pos]
      simp [h c (List.mem_cons_self _ _)]
  | cons c cs ih =>
    simp only [List.cons_append, dropTrailing, List.append_eq, ih]

theorem dropTrailing_last_neg {p : Char → Bool} {c : Char}
    (X : List Char) (hp : p c = false) :
    dropTrailing p (X ++ [c]) = X ++ [c] := by
  induction X with
  | nil =>
    simp only [List.nil_append, dropTrailing]
    rw [if_neg]
    simp [hp]
  | cons x X2 ih =>
    simp only [List.cons_append, dropTrailing, List.append_eq, ih]
    rw [if_neg]
    simp

theorem containsSub_of_isPrefixOf {pre H : List Char}
    (h : H.isPrefixOf pre = true) (hne : H ≠ []) :
    containsSub pre H = true := by
  cases pre with
  | nil =>
    rw [List.isPrefixOf_iff_prefix] at h
    exact absurd (List.prefix_nil.mp h) hne
  | cons c cs =>
    simp only [containsSub, Bool.or_eq_true]
    exact Or.inl h

theorem containsSub_append_mid {x y n : List Char} (hne : n ≠ []) :
    containsSub (x ++ n ++ y) n = true := by
  induction x with
  | nil =>
    rw [List.nil_append]
    cases hn : n ++ y with
    | nil =>
      rcases List.append_eq_nil.mp hn with ⟨h1, _⟩
      exact absurd h1 hne
    | cons c cs =>
      simp only [containsSub, Bool.or_eq_true]
      rw [← hn]
      exact Or.inl (List.isPrefixOf_iff_prefix.mpr ⟨y, rfl⟩)
  | cons c cs ih =>
    simp only [List.cons_append, containsSub, Bool.or_eq_true]
    exact Or.inr ih

theorem not_prefix_middle {T pre rest : List Char} (hT : '[' ∉ T)
    (hpre : containsSub pre ('[' :: T) = false) (hne : pre ≠ []) :
    ¬ ('[' :: T).isPrefixOf (pre ++ '[' :: T ++ rest) = true := by
  intro hp
  rw [List.isPrefixOf_iff_prefix, List.append_assoc] at hp
  have hPre2 : pre <+: pre ++ ('[' :: T ++ rest) := ⟨_, rfl⟩
  rcases le_or_lt ('[' :: T).length pre.length with hlen | hlen
  · have h1 : ('[' :: T) <+: pre := List.prefix_of_prefix_length_le hp hPre2 hlen
    have h2 : containsSub pre ('[' :: T) = true :=
      containsSub_of_isPrefixOf (List.isPrefixOf_iff_prefix.mpr h1) (by simp)
    rw [h2] at hpre
    exact absurd hpre (by simp)
  · have h2 : pre <+: ('[' :: T) :=
      List.prefix_of_prefix_length_le hPre2 hp (le_of_lt hlen)
    obtain ⟨H2, hH2⟩ := h2
    have hH2ne : H2 ≠ [] := by
      intro he
      rw [he, List.append_nil] at hH2
      rw [hH2] at hlen
      exact absurd hlen (lt_irrefl _)
    obtain ⟨t2, ht2⟩ := hp
    have hcat0 : pre ++ (H2 ++ t2) = pre ++ ('[' :: T ++ rest) := by
      rw [← List.append_assoc, hH2, ht2]
    have hcat := List.append_cancel_left hcat0
    cases H2 with
    | nil => exact hH2ne rfl
    | cons h20 H2t =>
      rw [List.cons_append] at hcat
      rw [List.cons_append] at hcat
      injection hcat with h4 h5
      cases hpc : pre with
      | nil => exact hne hpc
      | cons p0 pre2 =>
        rw [hpc, List.cons_append] at hH2
        injection hH2 with h0 hT2
        apply hT
        rw [← hT2, h4]
        exact List.mem_append_right _ (List.mem_cons_self _ _)

theorem splitFirst_boundary {T pre rest : List Char} (hT : '[' ∉ T)
    (hpre : containsSub pre ('[' :: T) = false) :
    splitFirst ('[' :: T) (pre ++ ('[' :: T) ++ rest) = some (pre, rest) := by
  induction pre with
  | nil =>
    rw [List.nil_append, List.cons_append]
    simp only [splitFirst]
    rw [if_pos (List.isPrefixOf_iff_prefix.mpr
        ⟨rest, by rw [List.cons_append]⟩)]
    rw [List.length_cons, List.drop_succ_cons, List.drop_left]
  | cons p0 pre2 ih =>
    have hpre2 : containsSub pre2 ('[' :: T) = false := by
      simp only [containsSub, Bool.or_eq_false_iff] at hpre
      exact hpre.2
    have hnp := @not_prefix_middle _ _ rest hT hpre (List.cons_ne_nil p0 pre2)
    rw [List.cons_append, List.cons_append]
    simp only [splitFirst]
    rw [if_neg (show ¬('[' :: T).isPrefixOf
        (p0 :: (pre2 ++ '[' :: T ++ rest)) = true
      from fun hcontra => hnp hcontra), ih hpre2]

theorem formatMembers_eq (ms : List String) :
    formatMembers ms =
      'm' :: 'e' :: 'm' :: 'b' :: 'e' :: 'r' :: 's' :: ' ' :: '=' :: ' ' ::
        '[' :: '\n' :: (memberLines ms ++ '\n' :: [']']) := rfl

theorem format_append_shape (ms : List String) (post : List Char) :
    formatMembers ms ++ post =
      'm' :: 'e' :: 'm' :: 'b' :: 'e' :: 'r' :: 's' :: ' ' :: '=' :: ' ' ::
        '[' :: '\n' :: (memberLines ms ++ ('\n' :: ']' :: post)) := by
  rw [formatMembers_eq]
  simp [List.append_assoc]

theorem takeWhile_ws_format (ms : List String) (post : List Char) :
    ('\n' :: (formatMembers ms ++ post)).takeWhile pyIsSpace = ['\n'] := by
  rw [List.takeWhile_cons_of_pos (by decide), format_append_shape,
    List.takeWhile_cons_of_neg (by decide)]

theorem dropWhile_ws_format (ms : List String) (post : List Char) :
    ('\n' :: (formatMembers ms ++ post)).dropWhile pyIsSpace =
      formatMembers ms ++ post := by
  rw [List.dropWhile_cons_of_pos (by decide), format_append_shape,
    List.dropWhile_cons_of_neg (by decide), ← format_append_shape]

theorem mem_memberLine {x : Char} {m : String} (hx : x ∈ memberLine m) :
    x = ' ' ∨ x = '"' ∨ x ∈ m.toList := by
  simp only [memberLine, List.append_assoc, List.mem_append] at hx
  rcases hx with hx | hx | hx
  · simp only [show "    \"".toList = [' ', ' ', ' ', ' ', '"'] from rfl,
      List.mem_cons, List.mem_singleton] at hx
    tauto
  · tauto
  · simp only [List.mem_singleton] at hx
    tauto

theorem mem_memberLines {x : Char} {ms : List String}
    (hx : x ∈ memberLines ms) :
    x = ' ' ∨ x = '"' ∨ x = ',' ∨ x = '\n' ∨ ∃ m ∈ ms, x ∈ m.toList := by
  induction ms with
  | nil => simp [memberLines] at hx
  | cons m rest ih =>
    cases rest with
    | nil =>
      rcases mem_memberLine (by simpa [memberLines] using hx) with h | h | h
      · exact Or.inl h
      · exact Or.inr (Or.inl h)
      · exact Or.inr (Or.inr (Or.inr (Or.inr ⟨m, List.mem_cons_self _ _, h⟩)))
    | cons r rs =>
      simp only [memberLines, List.mem_append, List.mem_cons] at hx
      rcases hx with hx | hx | hx | hx
      · rcases mem_memberLine hx with h | h | h
        · exact Or.inl h
        · exact Or.inr (Or.inl h)
        · exact Or.inr (Or.inr (Or.inr (Or.inr
            ⟨m, List.mem_cons_self _ _, h⟩)))
      · exact Or.inr (Or.inr (Or.inl hx))
      · exact Or.inr (Or.inr (Or.inr (Or.inl hx)))
      · rcases ih hx with h | h | h | h | ⟨m2, hm2, h⟩
        · exact Or.inl h
        · exact Or.inr (Or.inl h)
        · exact Or.inr (Or.inr (Or.inl h))
        · exact Or.inr (Or.inr (Or.inr (Or.inl h)))
        · exact Or.inr (Or.inr (Or.inr (Or.inr
            ⟨m2, List.mem_cons_of_mem _ hm2, h⟩)))

theorem safe_not_mem_memberLines {ms : List String} {c : Char}
    (hsafe : ∀ m ∈ ms, safeMember m = true)
    (h1 : c ≠ ' ') (h2 : c ≠ '"') (h3 : c ≠ ',') (h4 : c ≠ '\n')
    (h5 : safeMemberChar c = false) : c ∉ memberLines ms := by
  intro hx
  rcases mem_memberLines hx with h | h | h | h | ⟨m, hm, hmem⟩
  · exact h1 h
  · exact h2 h
  · exact h3 h
  · exact h4 h
  · have hs := hsafe m hm
    simp only [safeMember, Bool.and_eq_true, List.all_eq_true] at hs
    rw [hs.2 c hmem] at h5
    exact absurd h5 (by simp)

theorem stripMembersBlock_shape (A post : List Char)
    (hA : ∀ x ∈ A, x ≠ ']') :
    stripMembersBlock
      ('m' :: 'e' :: 'm' :: 'b' :: 'e' :: 'r' :: 's' :: ' ' :: '=' :: ' ' ::
        '[' :: '\n' :: (A ++ ('\n' :: ']' :: post))) = post := by
  have hpref : "members".toList.isPrefixOf
      ('m' :: 'e' :: 'm' :: 'b' :: 'e' :: 'r' :: 's' :: ' ' :: '=' :: ' ' ::
        '[' :: '\n' :: (A ++ ('\n' :: ']' :: post))) = true := rfl
  have hdw1 : ((' ' :: '=' :: ' ' :: '[' :: '\n' ::
        (A ++ ('\n' :: ']' :: post))) : List Char).dropWhile pyIsSpace =
      '=' :: ' ' :: '[' :: '\n' :: (A ++ ('\n' :: ']' :: post)) := by
    rw [List.dropWhile_cons_of_pos (by decide),
      List.dropWhile_cons_of_neg (by decide)]
  have hdw2 : ((' ' :: '[' :: '\n' ::
        (A ++ ('\n' :: ']' :: post))) : List Char).dropWhile pyIsSpace =
      '[' :: '\n' :: (A ++ ('\n' :: ']' :: post)) := by
    rw [List.dropWhile_cons_of_pos (by decide),
      List.dropWhile_cons_of_neg (by decide)]
  have hdw3 : (('\n' :: (A ++ ('\n' :: ']' :: post))) : List Char).dropWhile
      (· ≠ ']') = ']' :: post := by
    rw [List.dropWhile_cons_of_pos (by decide),
      dropWhile_append_all _ (fun x hx => by simpa using hA x hx),
      List.dropWhile_cons_of_pos (by decide),
      List.dropWhile_cons_of_neg (by decide)]
  have hdrop7 : (('m' :: 'e' :: 'm' :: 'b' :: 'e' :: 'r' :: 's' :: ' ' ::
      '=' :: ' ' :: '[' :: '\n' ::
        (A ++ ('\n' :: ']' :: post))) : List Char).drop 7 =
      ' ' :: '=' :: ' ' :: '[' :: '\n' :: (A ++ ('\n' :: ']' :: post)) := rfl
  simp only [stripMembersBlock, hpref, if_true, hdrop7, hdw1, hdw2, hdw3]

theorem takeWhile_body_shape (A post : List Char)
    (hA : ∀ x ∈ A, x ≠ ']') :
    (('\n' :: (A ++ ('\n' :: ']' :: post))) : List Char).takeWhile
      (· ≠ ']') = '\n' :: (A ++ ['\n']) := by
  rw [List.takeWhile_cons_of_pos (by decide),
    takeWhile_append_all _ (fun x hx => by simpa using hA x hx),
    List.takeWhile_cons_of_pos (by decide),
    List.takeWhile_cons_of_neg (by decide)]

theorem splitFirst_wsHeader {pre rest : List Char}
    (hpre : containsSub pre wsHeader = false) :
    splitFirst wsHeader (pre ++ wsHeader ++ rest) = some (pre, rest) :=
  splitFirst_boundary (by decide) hpre

theorem string_mk_toList (m : String) : String.mk m.toList = m := rfl

theorem quote_not_mem_safe {m : String} (hs : safeMember m = true) :
    '"' ∉ m.toList := by
  intro hx
  simp only [safeMember, Bool.and_eq_true, List.all_eq_true] at hs
  have h2 := hs.2 '"' hx
  exact absurd h2 (by decide)

theorem parseMemberItem_core {m : String} (hs : safeMember m = true)
    (wsA wsB : List Char) (hA : ∀ x ∈ wsA, pyIsSpace x = true)
    (hB : ∀ x ∈ wsB, pyIsSpace x = true) :
    parseMemberItem (wsA ++ ('"' :: m.toList ++ ['"']) ++ wsB) = some m := by
  have hstrip : pyStrip (wsA ++ ('"' :: m.toList ++ ['"']) ++ wsB) =
      '"' :: (m.toList ++ ['"']) := by
    unfold pyStrip
    rw [List.append_assoc, dropWhile_append_all _ hA,
      show (('"' :: m.toList ++ ['"']) ++ wsB : List Char) =
        '"' :: ((m.toList ++ ['"']) ++ wsB) by simp,
      List.dropWhile_cons_of_neg (by decide),
      show ('"' :: ((m.toList ++ ['"']) ++ wsB) : List Char) =
        ('"' :: (m.toList ++ ['"'])) ++ wsB by simp,
      dropTrailing_append_all _ hB,
      show ('"' :: (m.toList ++ ['"']) : List Char) =
        ('"' :: m.toList) ++ ['"'] by simp,
      dropTrailing_last_neg _ (by decide)]
  have hbody : (m.toList ++ ['"']).takeWhile (· ≠ '"') = m.toList := by
    rw [takeWhile_append_all _ (fun x hx => by
        simp only [decide_eq_true_eq]
        exact fun he => quote_not_mem_safe hs (he ▸ hx)),
      List.takeWhile_cons_of_neg (by decide), List.append_nil]
  simp only [parseMemberItem, hstrip, hbody, string_mk_toList,
    eq_self_iff_true, if_true]

theorem comma_not_mem_line {m : String} (hs : safeMember m = true) :
    ∀ x ∈ ('\n' :: memberLine m : List Char), x ≠ ',' := by
  intro x hx hc
  rcases List.mem_cons.mp hx with h | h
  · rw [hc] at h
    exact absurd h (by decide)
  · rcases mem_memberLine h with h2 | h2 | h2
    · rw [hc] at h2
      exact absurd h2 (by decide)
    · rw [hc] at h2
      exact absurd h2 (by decide)
    · simp only [safeMember, Bool.and_eq_true, List.all_eq_true] at hs
      have h3 := hs.2 x h2
      rw [hc] at h3
      exact absurd h3 (by decide)

theorem splitOnComma_no_comma {l : List Char} (h : ∀ x ∈ l, x ≠ ',') :
    splitOnComma l = [l] := by
  induction l with
  | nil => rfl
  | cons c cs ih =>
    simp only [splitOnComma, List.append_eq]
    rw [if_neg (h c (List.mem_cons_self _ _)),
      ih fun x hx => h x (List.mem_cons_of_mem _ hx)]

theorem splitOnComma_append {a b : List Char} (h : ∀ x ∈ a, x ≠ ',') :
    splitOnComma (a ++ ',' :: b) = a :: splitOnComma b := by
  induction a with
  | nil =>
    simp only [List.nil_append, splitOnComma, eq_self_iff_true, if_true]
  | cons c cs ih =>
    simp only [List.cons_append, splitOnComma, List.append_eq]
    rw [if_neg (h c (List.mem_cons_self _ _)),
      ih fun x hx => h x (List.mem_cons_of_mem _ hx)]

theorem line_shape (m : String) (wsB : List Char) :
    ('\n' :: (memberLine m ++ wsB) : List Char) =
      ['\n', ' ', ' ', ' ', ' '] ++ ('"' :: m.toList ++ ['"']) ++ wsB := by
  simp [memberLine, List.append_assoc]

theorem mapM_parse_memberLines {ms : List String} (hne : ms ≠ [])
    (hsafe : ∀ m ∈ ms, safeMember m = true) :
    (splitOnComma ('\n' :: (memberLines ms ++ ['\n']))).mapM parseMemberItem
      = some ms := by
  induction ms with
  | nil => exact absurd rfl hne
  | cons m rest ih =>
    have hsm := hsafe m (List.mem_cons_self _ _)
    cases rest with
    | nil =>
      have hnc : ∀ x ∈ ('\n' :: (memberLines [m] ++ ['\n']) : List Char),
          x ≠ ',' := by
        intro x hx
        simp only [memberLines] at hx
        rcases List.mem_cons.mp hx with h | h
        · exact comma_not_mem_line hsm x (h ▸ List.mem_cons_self _ _)
        · rcases List.mem_append.mp h with h2 | h2
          · exact comma_not_mem_line hsm x (List.mem_cons_of_mem _ h2)
          · intro hc
            rw [hc] at h2
            exact absurd h2 (by decide)
      rw [splitOnComma_no_comma hnc]
      simp only [List.mapM_cons, List.mapM_nil, memberLines]
      rw [show ('\n' :: (memberLine m ++ ['\n']) : List Char) =
          ['\n', ' ', ' ', ' ', ' '] ++ ('"' :: m.toList ++ ['"']) ++ ['\n']
        from line_shape m ['\n']]
      rw [parseMemberItem_core hsm _ _ (by decide) (by decide)]
      rfl
    | cons r rs =>
      have hsplit : ('\n' :: (memberLines (m :: r :: rs) ++ ['\n']) :
          List Char) =
          ('\n' :: memberLine m) ++
            ',' :: ('\n' :: (memberLines (r :: rs) ++ ['\n'])) := by
        simp [memberLines, List.append_assoc]
      rw [hsplit, splitOnComma_append (comma_not_mem_line hsm)]
      simp only [List.mapM_cons]
      rw [show ('\n' :: memberLine m : List Char) =
          ['\n', ' ', ' ', ' ', ' '] ++ ('"' :: m.toList ++ ['"']) ++ []
        by rw [← line_shape m []]; simp]
      rw [parseMemberItem_core hsm _ _ (by decide) (by decide),
        ih (by simp) fun x hx => hsafe x (List.mem_cons_of_mem _ hx)]
      rfl

theorem parseMembersBody_lines {ms : List String}
    (hsafe : ∀ m ∈ ms, safeMember m = true) :
    parseMembersBody ('\n' :: (memberLines ms ++ ['\n'])) = some ms := by
  cases ms with
  | nil => rfl
  | cons m rest =>
    have hq : '"' ∈ ('\n' :: (memberLines (m :: rest) ++ ['\n']) :
        List Char) := by
      apply List.mem_cons_of_mem
      apply List.mem_append_left
      have hq2 : '"' ∈ memberLine m := by
        apply List.mem_append_left
        apply List.mem_append_left
        decide
      cases rest with
      | nil => exact hq2
      | cons r rs => exact List.mem_append_left _ hq2
    have h1 : '"' ∈ pyStrip ('\n' :: (memberLines (m :: rest) ++ ['\n'])) :=
      mem_dropTrailing_of_mem (mem_dropWhile_of_neg hq (by decide)) (by decide)
    unfold parseMembersBody
    rw [if_neg (fun he => by rw [he] at h1; simp at h1)]
    exact mapM_parse_memberLines (by simp) hsafe

theorem memberLines_no_rbracket {ms : List String}
    (hsafe : ∀ m ∈ ms, safeMember m = true) :
    ∀ x ∈ memberLines ms, x ≠ ']' := fun x hx he =>
  safe_not_mem_memberLines hsafe (by decide) (by decide) (by decide)
    (by decide) (by decide) (he ▸ hx)

theorem tomlWorkspaceMembers_doc {pre post : List Char} {ms : List String}
    (hpre : containsSub pre wsHeader = false)
    (hsafe : ∀ m ∈ ms, safeMember m = true) :
    tomlWorkspaceMembers (manifestDoc pre ms post) = some ms := by
  have hA := memberLines_no_rbracket hsafe
  have hpref : "members".toList.isPrefixOf
      ('m' :: 'e' :: 'm' :: 'b' :: 'e' :: 'r' :: 's' :: ' ' :: '=' :: ' ' ::
        '[' :: '\n' :: (memberLines ms ++ ('\n' :: ']' :: post))) = true := rfl
  have hdrop7 : (('m' :: 'e' :: 'm' :: 'b' :: 'e' :: 'r' :: 's' :: ' ' ::
      '=' :: ' ' :: '[' :: '\n' ::
        (memberLines ms ++ ('\n' :: ']' :: post))) : List Char).drop 7 =
      ' ' :: '=' :: ' ' :: '[' :: '\n' ::
        (memberLines ms ++ ('\n' :: ']' :: post)) := rfl
  have hdw1 : ((' ' :: '=' :: ' ' :: '[' :: '\n' ::
        (memberLines ms ++ ('\n' :: ']' :: post))) : List Char).dropWhile
        pyIsSpace =
      '=' :: ' ' :: '[' :: '\n' ::
        (memberLines ms ++ ('\n' :: ']' :: post)) := by
    rw [List.dropWhile_cons_of_pos (by decide),
      List.dropWhile_cons_of_neg (by decide)]
  have hdw2 : ((' ' :: '[' :: '\n' ::
        (memberLines ms ++ ('\n' :: ']' :: post))) : List Char).dropWhile
        pyIsSpace =
      '[' :: '\n' :: (memberLines ms ++ ('\n' :: ']' :: post)) := by
    rw [List.dropWhile_cons_of_pos (by decide),
      List.dropWhile_cons_of_neg (by decide)]
  have hdw3 : (('\n' :: (memberLines ms ++ ('\n' :: ']' :: post))) :
      List Char).dropWhile (· ≠ ']') = ']' :: post := by
    rw [List.dropWhile_cons_of_pos (by decide),
      dropWhile_append_all _ (fun x hx => by simpa using hA x hx),
      List.dropWhile_cons_of_pos (by decide),
      List.dropWhile_cons_of_neg (by decide)]
  have htake := takeWhile_body_shape (memberLines ms) post hA
  have hparse := parseMembersBody_lines hsafe
  have hdw0 : (('\n' :: 'm' :: 'e' :: 'm' :: 'b' :: 'e' :: 'r' :: 's' ::
        ' ' :: '=' :: ' ' :: '[' :: '\n' ::
        (memberLines ms ++ ('\n' :: ']' :: post))) : List Char).dropWhile
        pyIsSpace =
      'm' :: 'e' :: 'm' :: 'b' :: 'e' :: 'r' :: 's' :: ' ' :: '=' :: ' ' ::
        '[' :: '\n' :: (memberLines ms ++ ('\n' :: ']' :: post)) := by
    rw [List.dropWhile_cons_of_pos (by decide),
      List.dropWhile_cons_of_neg (by decide)]
  have hdoc : manifestDoc pre ms post =
      pre ++ wsHeader ++ ('\n' :: (formatMembers ms ++ post)) := by
    simp [manifestDoc, List.append_assoc]
  simp only [tomlWorkspaceMembers, hdoc]
  rw [splitFirst_wsHeader hpre]
  simp only [format_append_shape, hdw0, hpref, if_true,
    hdrop7, hdw1, hdw2, hdw3, htake, hparse]

theorem updateWorkspaceSection_doc {pre post : List Char}
    {ms ms2 : List String}
    (hpre : containsSub pre wsHeader = false)
    (hsafe : ∀ m ∈ ms, safeMember m = true) :
    updateWorkspaceSection (manifestDoc pre ms post) ms2 =
      manifestDoc pre ms2 post := by
  have hA := memberLines_no_rbracket hsafe
  have hdoc : manifestDoc pre ms post =
      pre ++ wsHeader ++ ('\n' :: (formatMembers ms ++ post)) := by
    simp [manifestDoc, List.append_assoc]
  have hcont : containsSub (manifestDoc pre ms post) wsHeader = true := by
    rw [hdoc]
    exact containsSub_append_mid (by decide)
  have hstripblock := stripMembersBlock_shape (memberLines ms) post hA
  have hdw0 : (('\n' :: 'm' :: 'e' :: 'm' :: 'b' :: 'e' :: 'r' :: 's' ::
        ' ' :: '=' :: ' ' :: '[' :: '\n' ::
        (memberLines ms ++ ('\n' :: ']' :: post))) : List Char).dropWhile
        pyIsSpace =
      'm' :: 'e' :: 'm' :: 'b' :: 'e' :: 'r' :: 's' :: ' ' :: '=' :: ' ' ::
        '[' :: '\n' :: (memberLines ms ++ ('\n' :: ']' :: post)) := by
    rw [List.dropWhile_cons_of_pos (by decide),
      List.dropWhile_cons_of_neg (by decide)]
  have htake0 : (('\n' :: 'm' :: 'e' :: 'm' :: 'b' :: 'e' :: 'r' :: 's' ::
        ' ' :: '=' :: ' ' :: '[' :: '\n' ::
        (memberLines ms ++ ('\n' :: ']' :: post))) : List Char).takeWhile
        pyIsSpace = ['\n'] := by
    rw [List.takeWhile_cons_of_pos (by decide),
      List.takeWhile_cons_of_neg (by decide)]
  simp only [updateWorkspaceSection, hcont, if_true]
  rw [hdoc, splitFirst_wsHeader hpre]
  simp only [format_append_shape, hdw0, htake0, hstripblock]
  simp [manifestDoc, format_append_shape, List.append_assoc]

theorem charListLe_total (a b : List Char) :
    charListLe a b = true ∨ charListLe b a = true := by
  induction a generalizing b with
  | nil => exact Or.inl rfl
  | cons x xs ih =>
    cases b with
    | nil => exact Or.inr rfl
    | cons y ys =>
      rcases Nat.lt_trichotomy x.toNat y.toNat with h | h | h
      · exact Or.inl (by simp [charListLe, h])
      · have hxy : ¬ x.toNat < y.toNat := by omega
        have hyx : ¬ y.toNat < x.toNat := by omega
        rcases ih ys with h2 | h2
        · exact Or.inl (by simp [charListLe, hxy, hyx, h2])
        · exact Or.inr (by simp [charListLe, hxy, hyx, h2])
      · exact Or.inr (by simp [charListLe, h])

theorem charListLe_trans {a b c : List Char} (h1 : charListLe a b = true)
    (h2 : charListLe b c = true) : charListLe a c = true := by
  induction a generalizing b c with
  | nil => rfl
  | cons x xs ih =>
    cases b with
    | nil => simp [charListLe] at h1
    | cons y ys =>
      cases c with
      | nil => simp [charListLe] at h2
      | cons z zs =>
        rcases Nat.lt_trichotomy x.toNat y.toNat with hxy | hxy | hxy
        · rcases Nat.lt_trichotomy y.toNat z.toNat with hyz | hyz | hyz
          · exact (by simp [charListLe, Nat.lt_trans hxy hyz])
          · exact (by simp [charListLe, hyz ▸ hxy])
          · rw [show charListLe (y :: ys) (z :: zs) =
                false by simp [charListLe, hyz, Nat.lt_asymm hyz]] at h2
            exact absurd h2 (by simp)
        · rcases Nat.lt_trichotomy y.toNat z.toNat with hyz | hyz | hyz
          · exact (by simp [charListLe, hxy ▸ hyz])
          · have hxyn : ¬ x.toNat < y.toNat := by omega
            have hyxn : ¬ y.toNat < x.toNat := by omega
            have hyzn : ¬ y.toNat < z.toNat := by omega
            have hzyn : ¬ z.toNat < y.toNat := by omega
            have hxzn : ¬ x.toNat < z.toNat := by omega
            have hzxn : ¬ z.toNat < x.toNat := by omega
            rw [show charListLe (x :: xs) (y :: ys) = charListLe xs ys by
              simp only [charListLe, if_neg hxyn, if_neg hyxn]] at h1
            rw [show charListLe (y :: ys) (z :: zs) = charListLe ys zs by
              simp only [charListLe, if_neg hyzn, if_neg hzyn]] at h2
            rw [show charListLe (x :: xs) (z :: zs) = charListLe xs zs by
              simp only [charListLe, if_neg hxzn, if_neg hzxn]]
            exact ih h1 h2
          · rw [show charListLe (y :: ys) (z :: zs) =
                false by simp [charListLe, hyz, Nat.lt_asymm hyz]] at h2
            exact absurd h2 (by simp)
        · rw [show charListLe (x :: xs) (y :: ys) =
              false by simp [charListLe, hxy, Nat.lt_asymm hxy]] at h1
          exact absurd h1 (by simp)

theorem pyStrLe_total (a b : String) :
    pyStrLe a b = true ∨ pyStrLe b a = true := charListLe_total _ _

theorem pyStrLe_trans {a b c : String} (h1 : pyStrLe a b = true)
    (h2 : pyStrLe b c = true) : pyStrLe a c = true :=
  charListLe_trans h1 h2

theorem perm_insertSorted (s : String) (l : List String) :
    List.Perm (insertSorted s l) (s :: l) := by
  induction l with
  | nil => exact List.Perm.refl _
  | cons t ts ih =>
    unfold insertSorted
    by_cases h : pyStrLe s t = true
    · rw [if_pos h]
    · rw [if_neg h]
      exact (ih.cons t).trans (List.Perm.swap s t ts)

theorem perm_sortStrings (l : List String) : List.Perm (sortStrings l) l := by
  induction l with
  | nil => exact List.Perm.refl _
  | cons s ss ih =>
    exact (perm_insertSorted s (sortStrings ss)).trans (ih.cons s)

theorem sorted_insertSorted {s : String} {l : List String}
    (hl : List.Sorted (fun a b => pyStrLe a b = true) l) :
    List.Sorted (fun a b => pyStrLe a b = true) (insertSorted s l) := by
  induction l with
  | nil => simp [insertSorted]
  | cons t ts ih =>
    rw [List.sorted_cons] at hl
    unfold insertSorted
    by_cases h : pyStrLe s t = true
    · rw [if_pos h]
      refine List.sorted_cons.mpr ⟨?_, List.sorted_cons.mpr hl⟩
      intro b hb
      rcases List.mem_cons.mp hb with hb | hb
      · exact hb ▸ h
      · exact pyStrLe_trans h (hl.1 b hb)
    · rw [if_neg h]
      refine List.sorted_cons.mpr ⟨?_, ih hl.2⟩
      intro b hb
      rw [mem_insertSorted] at hb
      rcases hb with hb | hb
      · rcases pyStrLe_total s t with h2 | h2
        · exact absurd h2 h
        · exact hb ▸ h2
      · exact hl.1 b hb

theorem sorted_sortStrings (l : List String) :
    List.Sorted (fun a b => pyStrLe a b = true) (sortStrings l) := by
  induction l with
  | nil => simp [sortStrings]
  | cons s ss ih => exact sorted_insertSorted ih

theorem update_workspace_members_doc {pre post : List Char}
    {ms : List String} {m : String}
    (hpre : containsSub pre wsHeader = false)
    (hsafe : ∀ x ∈ ms, safeMember x = true) :
    update_workspace_members (manifestDoc pre ms post) m =
      if m ∈ ms then some (manifestDoc pre ms post)
      else some (manifestDoc pre (sortStrings (ms ++ [m])) post) := by
  unfold update_workspace_members
  rw [tomlWorkspaceMembers_doc hpre hsafe]
  dsimp only
  by_cases hm : m ∈ ms
  · rw [if_pos hm, if_pos hm]
  · rw [if_neg hm, if_neg hm, updateWorkspaceSection_doc hpre hsafe]

/-- C6: on a canonically shaped manifest whose list does not yet contain
the new member, the mutation rewrites only the members block — it now
holds the old list with the new path inserted, re-sorted in Python's
lexicographic string order — and every character before and after the
block (`pre`, the header line, `post`) is preserved verbatim. -/
theorem c6_members_block_rewrite {pre post : List Char}
    {ms : List String} {m : String}
    (hpre : containsSub pre wsHeader = false)
    (hsafe : ∀ x ∈ ms, safeMember x = true) (hm : m ∉ ms) :
    update_workspace_members (manifestDoc pre ms post) m =
      some (manifestDoc pre (sortStrings (ms ++ [m])) post) ∧
    List.Perm (sortStrings (ms ++ [m])) (ms ++ [m]) ∧
    List.Sorted (fun a b => pyStrLe a b = true) (sortStrings (ms ++ [m])) := by
  refine ⟨?_, perm_sortStrings _, sorted_sortStrings _⟩
  rw [update_workspace_members_doc hpre hsafe, if_neg hm]

/-- Witness for C6: the scenario of the spec — a manifest listing
`casts/alpha` gains `casts/new_cast`, sorted, rest of the file
unchanged. -/
theorem c6_members_block_rewrite_witness :
    update_workspace_members
        (manifestDoc "[project]\nname = \"demo\"\n\n".toList ["casts/alpha"]
          "\n\n[tool.other]\nkeep = 1\n".toList) "casts/new_cast" =
      some (manifestDoc "[project]\nname = \"demo\"\n\n".toList
        ["casts/alpha", "casts/new_cast"]
        "\n\n[tool.other]\nkeep = 1\n".toList) ∧
    List.Perm (["casts/alpha", "casts/new_cast"] : List String)
      (["casts/alpha"] ++ ["casts/new_cast"]) ∧
    List.Sorted (fun a b => pyStrLe a b = true)
      (["casts/alpha", "casts/new_cast"] : List String) := by
  exact c6_members_block_rewrite (by decide) (by decide) (by decide)

/-- The registry mutation is a no-op on the parsed document when both
the dependency path and the graphs key are already present. -/
theorem update_langgraph_registry_noop {p : List (String × JVal)}
    {cast_snake : String} {deps : List JVal} {gs : List (String × JVal)}
    (hd : lookupField p "dependencies" = some (.jarr deps))
    (hdep : deps.any (jvalEqStr · ("./casts/" ++ cast_snake)) = true)
    (hg : lookupField p "graphs" = some (.jobj gs))
    (hk : (lookupField gs cast_snake).isSome = true) :
    update_langgraph_registry p cast_snake = some p := by
  unfold update_langgraph_registry
  rw [addCastDependency_of_present hd (by simpa [depPresent] using hdep)]
  simp only [Option.some_bind]
  exact addCastGraph_of_present hg hk

/-- C4: both mutations are idempotent. On a canonically shaped manifest,
running `update_workspace_members` on the result of a first run with the
same member path returns that result byte-identically; and any document
produced by `update_langgraph_registry` is a fixed point of a second run
with the same identifier (the serialized file is a function of the parsed
document, so equal documents give byte-identical files). -/
theorem c4_mutations_idempotent {pre post : List Char}
    {ms : List String} {m : String}
    (hpre : containsSub pre wsHeader = false)
    (hsafe : ∀ x ∈ ms, safeMember x = true) (hm : safeMember m = true)
    {p r : List (String × JVal)} {cast_snake : String}
    (hreg : update_langgraph_registry p cast_snake = some r) :
    (update_workspace_members (manifestDoc pre ms post) m).bind
        (fun c1 => update_workspace_members c1 m) =
      update_workspace_members (manifestDoc pre ms post) m ∧
    update_langgraph_registry r cast_snake = some r := by
  constructor
  · rw [update_workspace_members_doc hpre hsafe]
    by_cases hmem : m ∈ ms
    · rw [if_pos hmem]
      simp only [Option.some_bind]
      rw [update_workspace_members_doc hpre hsafe, if_pos hmem]
    · rw [if_neg hmem]
      simp only [Option.some_bind]
      have hsafe2 : ∀ x ∈ sortStrings (ms ++ [m]), safeMember x = true := by
        intro x hx
        rw [mem_sortStrings] at hx
        rcases List.mem_append.mp hx with h | h
        · exact hsafe x h
        · exact (List.mem_singleton.mp h) ▸ hm
      rw [update_workspace_members_doc hpre hsafe2,
        if_pos (mem_sortStrings.mpr
          (List.mem_append_right _ (List.mem_singleton.mpr rfl)))]
  · exact update_langgraph_registry_idem hreg

/-- Witness for C4: a fresh manifest gains `casts/beta` once, and an
empty registry document updated for `beta` is a fixed point of a second
update. -/
theorem c4_mutations_idempotent_witness :
    ((update_workspace_members
        (manifestDoc "[project]\n\n".toList ["casts/alpha"] "\n".toList)
        "casts/beta").bind
      (fun c1 => update_workspace_members c1 "casts/beta") =
      update_workspace_members
        (manifestDoc "[project]\n\n".toList ["casts/alpha"] "\n".toList)
        "casts/beta") ∧
    update_langgraph_registry
        [("dependencies", .jarr [.jstr ".", .jstr "./casts/beta"]),
         ("graphs",
          .jobj [("beta", .jstr "./casts/beta/graph.py:beta_graph")])]
        "beta" =
      some [("dependencies", .jarr [.jstr ".", .jstr "./casts/beta"]),
            ("graphs",
             .jobj [("beta", .jstr "./casts/beta/graph.py:beta_graph")])] :=
  c4_mutations_idempotent (by decide) (by decide) (by decide)
    (p := []) (by rfl)

/-- C5 counterexample: a registry file that already contains both the
dependency path and the graphs key for the identifier is NOT left
byte-identical — `_save_json_file` always rewrites it via
`json.dumps(..., indent=2) + "\n"`, so a compact single-line file is
reformatted even though its parsed content is unchanged. -/
theorem c5_counterexample_reformatting :
    update_langgraph_file c5input "alpha" = some c5output ∧
    c5output ≠ c5input := by
  constructor
  · have h1 : jsonLoads c5input = some (.jobj c5payload) := by rfl
    have h2 : update_langgraph_registry c5payload "alpha" = some c5payload := by
      rfl
    have h3 : dumpJVal 0 (.jobj c5payload) ++ ['\n'] = c5output := by
      simp only [c5payload, dumpJVal, dumpObjItems, dumpArrItems,
        escapeJsonStr, escapeJsonChar, jsonIndent]
      decide
    simp only [update_langgraph_file, h1, h2, jsonDumps, Option.map_some]
    exact congrArg some h3
  · decide

/-- C5 (amended): a mutation call whose entry is already present is a
no-op on the document content — byte-identical for the manifest, and
identical at the level of the parsed document for the registry (whose
file is nevertheless always rewritten in `json.dumps(indent=2)` form, so
its bytes only survive when they were already canonical). -/
theorem c5_amended_present_noop {pre post : List Char}
    {ms : List String} {m : String}
    (hpre : containsSub pre wsHeader = false)
    (hsafe : ∀ x ∈ ms, safeMember x = true) (hm : m ∈ ms)
    {p : List (String × JVal)} {cast_snake : String}
    {deps : List JVal} {gs : List (String × JVal)}
    (hd : lookupField p "dependencies" = some (.jarr deps))
    (hdep : deps.any (jvalEqStr · ("./casts/" ++ cast_snake)) = true)
    (hg : lookupField p "graphs" = some (.jobj gs))
    (hk : (lookupField gs cast_snake).isSome = true) :
    update_workspace_members (manifestDoc pre ms post) m =
      some (manifestDoc pre ms post) ∧
    update_langgraph_registry p cast_snake = some p := by
  constructor
  · rw [update_workspace_members_doc hpre hsafe, if_pos hm]
  · exact update_langgraph_registry_noop hd hdep hg hk

/-- Witness for C5 (amended): a manifest already listing `casts/alpha`
and a registry already holding both entries for `alpha` are left
unchanged. -/
theorem c5_amended_present_noop_witness :
    update_workspace_members
        (manifestDoc "[project]\n\n".toList ["casts/alpha"] "\n".toList)
        "casts/alpha" =
      some (manifestDoc "[project]\n\n".toList ["casts/alpha"] "\n".toList) ∧
    update_langgraph_registry
        [("dependencies", .jarr [.jstr ".", .jstr "./casts/alpha"]),
         ("graphs",
          .jobj [("alpha", .jstr "./casts/alpha/graph.py:alpha_graph")])]
        "alpha" =
      some [("dependencies", .jarr [.jstr ".", .jstr "./casts/alpha"]),
            ("graphs",
             .jobj [("alpha", .jstr "./casts/alpha/graph.py:alpha_graph")])] :=
  c5_amended_present_noop (by decide) (by decide) (by decide)
    (by rfl) (by rfl) (by rfl) (by rfl)

/-- C9: the staging root is a scoped resource — for every combination of
step failures and every starting state, the temporary staging directory
is gone when `render_cookiecutter_cast_subproject` returns or
propagates, on the success path, on the expected missing-cast
`FileNotFoundError` path, and on every unexpected-exception path alike
(the two sample conjuncts exhibit the success and expected-failure exit
kinds). -/
theorem c9_staging_always_removed (o : CastRenderOracle) (s : FsState) :
    (render_cookiecutter_cast_subproject o s).2.stagingExists = false ∧
    (render_cookiecutter_cast_subproject ⟨false, true, false⟩ s).1 =
      .ok ∧
    (render_cookiecutter_cast_subproject ⟨false, false, false⟩ s).1 =
      .raised "FileNotFoundError" := by
  refine ⟨rfl, ?_, ?_⟩ <;>
    simp [render_cookiecutter_cast_subproject, withTemporaryDirectory,
      castRenderBody]

end ActOperator
